import Mathlib

/-!
# Verification of the philippine-law-mcp ingestion and parsing pipeline

This file gives a shallow embedding of the ingestion pipeline of the
philippine-law-mcp repository (the rate-limited fetcher, the HTML act
parser with definition extraction, the census index-page enumerator, and
the per-document orchestration loop of the ingest script), together with
theorems settling the specification's testable properties.

Text is modelled as `List Char`; the JavaScript regular-expression scans
of the source are hand-compiled into deterministic character-level
scanners that follow the source patterns step by step (greedy character
classes, first-match alternation order, `exec` restart at the end of the
previous match).  Machine integers never overflow in the modelled code
(string lengths, HTTP statuses, retry counters), so `Nat` is used
directly.
-/

namespace PhilLaw

/-! ## Character and string primitives (JS semantics on `List Char`) -/

/-- ASCII lower-casing of a character, as done by the `i` regex flag and
`String.prototype.toLowerCase` on the ASCII texts handled here. -/
def lowerChar (c : Char) : Char :=
  if 65 ≤ c.toNat ∧ c.toNat ≤ 90 then Char.ofNat (c.toNat + 32) else c

/-- ASCII upper-casing, for `String.prototype.toUpperCase` on chapter labels. -/
def upperChar (c : Char) : Char :=
  if 97 ≤ c.toNat ∧ c.toNat ≤ 122 then Char.ofNat (c.toNat - 32) else c

/-- JavaScript `\s` character class (whitespace as used by the regexes,
`trim`, and multiline trimming in the source). -/
def isJsWs (c : Char) : Bool :=
  let n := c.toNat
  n == 32 || n == 9 || n == 10 || n == 13 || n == 11 || n == 12 ||
  n == 0xa0 || n == 0x1680 || (decide (0x2000 ≤ n) && decide (n ≤ 0x200a)) ||
  n == 0x2028 || n == 0x2029 || n == 0x202f || n == 0x205f ||
  n == 0x3000 || n == 0xfeff

def isDigitCh (c : Char) : Bool :=
  decide (48 ≤ c.toNat) && decide (c.toNat ≤ 57)

def isAsciiLetter (c : Char) : Bool :=
  (decide (97 ≤ c.toNat) && decide (c.toNat ≤ 122)) ||
  (decide (65 ≤ c.toNat) && decide (c.toNat ≤ 90))

/-- JavaScript `\w` / word character, used for `\b` boundaries. -/
def isWordCh (c : Char) : Bool := isAsciiLetter c || isDigitCh c || c == '_'

def isAlnumLower (c : Char) : Bool :=
  (decide (97 ≤ c.toNat) && decide (c.toNat ≤ 122)) || isDigitCh c

/-- Case-insensitive match of a literal pattern (given lower-cased) against
the start of the text; returns the remaining text on success. -/
def ciDropLit : List Char → List Char → Option (List Char)
  | [], l => some l
  | _ :: _, [] => none
  | p :: ps, c :: cs => if lowerChar c = p then ciDropLit ps cs else none

/-- Case-sensitive literal match at the start of the text. -/
def csDropLit : List Char → List Char → Option (List Char)
  | [], l => some l
  | _ :: _, [] => none
  | p :: ps, c :: cs => if c = p then csDropLit ps cs else none

def str (s : String) : List Char := s.data

def lowerStr (l : List Char) : List Char := l.map lowerChar

/-- JS `String.prototype.trim`. -/
def trimJs (l : List Char) : List Char :=
  ((l.dropWhile isJsWs).reverse.dropWhile isJsWs).reverse

/-- JS `String.prototype.includes` (substring containment). -/
def containsSub (needle : List Char) : List Char → Bool
  | [] => needle.isEmpty
  | c :: cs => (csDropLit needle (c :: cs)).isSome || containsSub needle cs

/-- Value of a digit string, as `parseInt(s, 10)` on an all-digit string. -/
def natOfDigits (l : List Char) : Nat :=
  l.foldl (fun acc c => 10 * acc + (c.toNat - 48)) 0

def digitChar (n : Nat) : Char := Char.ofNat (48 + n)

/-- Decimal representation of a `Nat`, as a JS template literal prints an
integer. -/
def natDecimalAux : Nat → Nat → List Char
  | 0, _ => []
  | f + 1, n =>
    if n < 10 then [digitChar n]
    else natDecimalAux f (n / 10) ++ [digitChar (n % 10)]

def natDecimal (n : Nat) : List Char := natDecimalAux (n + 1) n

/-! ## A generic scan-and-replace engine

`String.prototype.replace` with a `g`-flagged regex scans the string left
to right; at each position it tries the pattern, and on a match emits the
replacement and resumes after the match.  `scanReplace` implements that
loop for a matcher `f` returning `(replacement, rest-after-match)`.
Fuel bounds the recursion; every matcher used consumes at least one
character, so `l.length` fuel is always enough. -/

def scanReplace (f : List Char → Option (List Char × List Char)) :
    Nat → List Char → List Char
  | 0, l => l
  | _ + 1, [] => []
  | fuel + 1, c :: cs =>
    match f (c :: cs) with
    | some (rep, rest) =>
      if rest.length < (c :: cs).length then rep ++ scanReplace f fuel rest
      else c :: scanReplace f fuel cs
    | none => c :: scanReplace f fuel cs

/-- Replace every occurrence of the literal `pat` (case-sensitive, as the
entity replacements in the source) by `rep`. -/
def replaceLit (pat rep : List Char) (l : List Char) : List Char :=
  scanReplace (fun s => (csDropLit pat s).map fun rest => (rep, rest)) l.length l

/-! ## `stripHtml` (parser version, `lib/parser.ts`)

Each `.replace` of the source is one pass; the passes run in source
order. -/

/-- Matcher for `/<br\s*\/?>/gi`. -/
def brMatcher (l : List Char) : Option (List Char × List Char) :=
  (ciDropLit (str "<br") l).bind fun r1 =>
    let r2 := r1.dropWhile isJsWs
    let r3 := match r2 with | '/' :: t => t | _ => r2
    match r3 with
    | '>' :: t => some ([ '\n' ], t)
    | _ => none

/-- Matcher for `/<\/p>/gi`. -/
def pCloseMatcher (l : List Char) : Option (List Char × List Char) :=
  (ciDropLit (str "</p>") l).map fun rest => ([ '\n' ], rest)

/-- Matcher for `/<[^>]+>/g`. -/
def tagMatcher (l : List Char) : Option (List Char × List Char) :=
  match l with
  | '<' :: t =>
    let run := t.takeWhile (fun c => !(c == '>'))
    if run.length ≥ 1 then
      match t.drop run.length with
      | '>' :: rest => some ([ ' ' ], rest)
      | _ => none
    else none
  | _ => none

/-- Matcher for `/[ \t]+/g`. -/
def spaceTabMatcher (l : List Char) : Option (List Char × List Char) :=
  let run := l.takeWhile (fun c => c == ' ' || c == '\t')
  if run.length ≥ 1 then some ([ ' ' ], l.drop run.length) else none

/-- Matcher for a run of JS whitespace, `/\s+/g`. -/
def wsRunMatcher (l : List Char) : Option (List Char × List Char) :=
  let run := l.takeWhile isJsWs
  if run.length ≥ 1 then some ([ ' ' ], l.drop run.length) else none

/-- Index of the last `'\n'` in a list, if any. -/
def lastNl (l : List Char) : Option Nat :=
  match l.reverse.findIdx? (· == '\n') with
  | some i => some (l.length - 1 - i)
  | none => none

/-- Matcher for `/\n\s*\n/g`: a newline, a greedy whitespace run whose last
newline closes the match. -/
def blankLineMatcher (l : List Char) : Option (List Char × List Char) :=
  match l with
  | '\n' :: rest =>
    let run := rest.takeWhile isJsWs
    match lastNl run with
    | some k => some ([ '\n' ], rest.drop (k + 1))
    | none => none
  | _ => none

/-- One left-to-right pass of `/^\s+|\s+$/gm` (multiline trimming).
`atStart` records whether the current position follows a `'\n'` (or is the
start of the string), which is what `^` tests under the `m` flag. -/
def mTrimAux : Nat → Bool → List Char → List Char
  | 0, _, l => l
  | _ + 1, _, [] => []
  | fuel + 1, atStart, c :: cs =>
    let l := c :: cs
    let run := l.takeWhile isJsWs
    if atStart ∧ run.length ≥ 1 then
      mTrimAux fuel (run.getLast? == some '\n') (l.drop run.length)
    else if run.length ≥ 1 then
      if run.length == l.length then
        []
      else
        match lastNl run with
        | some k =>
          if k ≥ 1 then
            mTrimAux fuel (run.getD (k - 1) ' ' == '\n') (l.drop k)
          else
            c :: mTrimAux fuel (c == '\n') cs
        | none => c :: mTrimAux fuel (c == '\n') cs
    else
      c :: mTrimAux fuel (c == '\n') cs

/-- Model of `stripHtml` from `lib/parser.ts`: strip tags, decode common entities,
normalise whitespace. -/
def stripHtml (html : List Char) : List Char :=
  let s1 := scanReplace brMatcher html.length html
  let s2 := scanReplace pCloseMatcher s1.length s1
  let s3 := scanReplace tagMatcher s2.length s2
  let s4 := replaceLit (str "&nbsp;") (str " ") s3
  let s5 := replaceLit (str "&#xA0;") (str " ") s4
  let s6 := replaceLit (str "&#160;") (str " ") s5
  let s7 := replaceLit (str "&amp;") (str "&") s6
  let s8 := replaceLit (str "&lt;") (str "<") s7
  let s9 := replaceLit (str "&gt;") (str ">") s8
  let s10 := replaceLit (str "&quot;") (str "\"") s9
  let s11 := replaceLit (str "&#39;") [Char.ofNat 39] s10
  let s12 := replaceLit (str "&mdash;") [Char.ofNat 0x2014] s11
  let s13 := replaceLit (str "&ndash;") [Char.ofNat 0x2013] s12
  let s14 := replaceLit (str "&rsquo;") [Char.ofNat 0x2019] s13
  let s15 := replaceLit (str "&lsquo;") [Char.ofNat 0x2018] s14
  let s16 := replaceLit (str "&ldquo;") [Char.ofNat 0x201C] s15
  let s17 := replaceLit (str "&rdquo;") [Char.ofNat 0x201D] s16
  let s18 := replaceLit [Char.ofNat 0x200B] [] s17
  let s19 := scanReplace spaceTabMatcher s18.length s18
  let s20 := scanReplace blankLineMatcher s19.length s19
  let s21 := mTrimAux s20.length true s20
  trimJs s21

/-- Model of `stripHtml` from `census.ts`: strip tags, decode entities, collapse all
whitespace runs to single spaces, trim. -/
def stripHtmlCensus (html : List Char) : List Char :=
  let s1 := scanReplace tagMatcher html.length html
  let s2 := replaceLit (str "&nbsp;") (str " ") s1
  let s3 := replaceLit (str "&amp;") (str "&") s2
  let s4 := replaceLit (str "&lt;") (str "<") s3
  let s5 := replaceLit (str "&gt;") (str ">") s4
  let s6 := replaceLit (str "&quot;") (str "\"") s5
  let s7 := replaceLit (str "&#39;") [Char.ofNat 39] s6
  let s8 := replaceLit (str "&rsquo;") [Char.ofNat 0x2019] s7
  let s9 := replaceLit (str "&ldquo;") [Char.ofNat 0x201C] s8
  let s10 := replaceLit (str "&rdquo;") [Char.ofNat 0x201D] s9
  let s11 := replaceLit (str "&mdash;") [Char.ofNat 0x2014] s10
  let s12 := replaceLit (str "&ndash;") [Char.ofNat 0x2013] s11
  let s13 := scanReplace wsRunMatcher s12.length s12
  trimJs s13

/-! ## Data model (`lib/parser.ts` interfaces) -/

inductive ActStatus
  | in_force | amended | repealed | not_yet_in_force
deriving DecidableEq

/-- Model of `ActIndexEntry` of `lib/parser.ts` (the SourceDocument metadata). -/
structure ActIndexEntry where
  id : String
  title : String
  titleEn : String
  shortName : String
  status : ActStatus
  issuedDate : String
  inForceDate : String
  url : String
  description : Option String
deriving DecidableEq

/-- Model of `ParsedProvision` of `lib/parser.ts`; the source's `section` field is
named `sectionNum` here because `section` is a Lean keyword. -/
structure ParsedProvision where
  provision_ref : List Char
  chapter : Option (List Char)
  sectionNum : List Char
  title : List Char
  content : List Char
deriving DecidableEq

/-- Model of `ParsedDefinition` of `lib/parser.ts`; the source always populates the
`source_provision` back-reference, so it is modelled as mandatory. -/
structure ParsedDefinition where
  term : List Char
  definition : List Char
  source_provision : List Char
deriving DecidableEq

/-- Model of `ParsedAct` of `lib/parser.ts` (the ActRecord). -/
structure ParsedAct where
  id : String
  actType : String
  title : String
  title_en : String
  short_name : String
  status : ActStatus
  issued_date : String
  in_force_date : String
  url : String
  description : Option String
  provisions : List ParsedProvision
  definitions : List ParsedDefinition
deriving DecidableEq

/-! ## Section boundary scan (`sectionPattern` in `parsePhilippineHtml`)

`/(?:^|\n)\s*(?:<[^>]*>\s*)*(?:(?:Section|Sec\.|SEC\.|SECTION)\s+(\d+[A-Za-z]*)\.?\s*|(?:Article|Art\.|ART\.|ARTICLE)\s+(\d+[A-Za-z]*)\.?\s*)/gi` -/

/-- Consume the `(?:<[^>]*>\s*)*` prelude: complete tags, each followed by
optional whitespace.  An unterminated tag stops the loop, after which the
keyword test fails at the `<`, exactly as the regex would fail. -/
def dropTags : Nat → List Char → List Char
  | 0, l => l
  | fuel + 1, l =>
    match l with
    | '<' :: t =>
      let run := t.takeWhile (fun c => !(c == '>'))
      match t.drop run.length with
      | '>' :: rest => dropTags fuel (rest.dropWhile isJsWs)
      | _ => l
    | _ => l

/-- The section keyword alternation, in source order; under the `i` flag
`SEC\.` and `SECTION` duplicate the earlier alternatives. -/
def secKeyword (l : List Char) : Option (List Char) :=
  match ciDropLit (str "section") l with
  | some r => some r
  | none =>
    match ciDropLit (str "sec.") l with
    | some r => some r
    | none =>
      match ciDropLit (str "article") l with
      | some r => some r
      | none => ciDropLit (str "art.") l

/-- The part of the section pattern after the `(?:^|\n)` anchor: leading
whitespace, tags, keyword, whitespace, designation (`\d+[A-Za-z]*`),
optional dot, trailing whitespace.  Returns the designation and the rest
of the text after the match. -/
def trySecBody (l : List Char) : Option (List Char × List Char) :=
  let l1 := l.dropWhile isJsWs
  let l2 := dropTags l1.length l1
  (secKeyword l2).bind fun l3 =>
    let ws := l3.takeWhile isJsWs
    if ws.length ≥ 1 then
      let l4 := l3.drop ws.length
      let ds := l4.takeWhile isDigitCh
      if ds.length ≥ 1 then
        let l5 := l4.drop ds.length
        let ls := l5.takeWhile isAsciiLetter
        let l6 := l5.drop ls.length
        let l7 := match l6 with | '.' :: t => t | _ => l6
        some (ds ++ ls, l7.dropWhile isJsWs)
      else none
    else none

/-- One recorded section boundary: character offset, designation, and
length of the matched text (as the source records them). -/
structure SecStart where
  idx : Nat
  num : List Char
  matchLen : Nat
deriving DecidableEq

/-- The `exec` loop over `sectionPattern`: `^` only matches at offset 0;
elsewhere the anchor consumes a `'\n'`.  After a match the scan resumes at
the end of the matched text. -/
def scanSectionsAux : Nat → Nat → List Char → List SecStart
  | 0, _, _ => []
  | _ + 1, _, [] => []
  | fuel + 1, pos, c :: cs =>
    let att : Option (List Char × List Char) :=
      if pos == 0 then trySecBody (c :: cs)
      else if c == '\n' then trySecBody cs
      else none
    match att with
    | some (num, rest) =>
      let consumed := (c :: cs).length - rest.length
      ⟨pos, num, consumed⟩ :: scanSectionsAux fuel (pos + consumed) rest
    | none => scanSectionsAux fuel (pos + 1) cs

def scanSections (body : List Char) : List SecStart :=
  scanSectionsAux body.length 0 body

/-! ## Chapter heading scan (`chapterPattern` in `parsePhilippineHtml`)

`/(?:<[^>]*>\s*)*(CHAPTER|TITLE)\s+([IVXLCDM]+|[0-9]+)\b[\s\S]*?(?:\n|<br[^>]*>)/gi` -/

def isRomanCh (c : Char) : Bool :=
  let d := lowerChar c
  d == 'i' || d == 'v' || d == 'x' || d == 'l' || d == 'c' || d == 'd' || d == 'm'

/-- Chapter keyword alternation; returns the canonical upper-cased keyword
(`toUpperCase` is applied in the source) and the rest. -/
def chKeyword (l : List Char) : Option (List Char × List Char) :=
  match ciDropLit (str "chapter") l with
  | some r => some (str "CHAPTER", r)
  | none => (ciDropLit (str "title") l).map fun r => (str "TITLE", r)

/-- Pattern `([IVXLCDM]+|[0-9]+)\b`: a maximal Roman-numeral or digit run followed
by a word boundary.  Shorter runs are always followed by a word character,
so only the maximal run need be tested. -/
def chNum (l : List Char) : Option (List Char × List Char) :=
  let rom := l.takeWhile isRomanCh
  if rom.length ≥ 1 then
    match l.drop rom.length with
    | [] => some (rom, [])
    | c :: cs => if isWordCh c then none else some (rom, c :: cs)
  else
    let ds := l.takeWhile isDigitCh
    if ds.length ≥ 1 then
      match l.drop ds.length with
      | [] => some (ds, [])
      | c :: cs => if isWordCh c then none else some (ds, c :: cs)
    else none

/-- The lazy tail `[\s\S]*?(?:\n|<br[^>]*>)`: the nearest following newline
or `<br...>` tag closes the match. -/
def lazyChEnd : Nat → List Char → Option (List Char)
  | 0, _ => none
  | _ + 1, [] => none
  | fuel + 1, c :: cs =>
    if c == '\n' then some cs
    else
      match ciDropLit (str "<br") (c :: cs) with
      | some r =>
        let run := r.takeWhile (fun d => !(d == '>'))
        match r.drop run.length with
        | '>' :: rest => some rest
        | _ => lazyChEnd fuel cs
      | none => lazyChEnd fuel cs

/-- A chapter match attempt at the current position: tags, keyword,
whitespace, numeral with boundary, lazy terminator.  Returns the
upper-cased `"KEYWORD NUM"` label and the rest after the match. -/
def tryChapterBody (l : List Char) : Option (List Char × List Char) :=
  let l2 := dropTags l.length l
  (chKeyword l2).bind fun kwr =>
    let ws := kwr.2.takeWhile isJsWs
    if ws.length ≥ 1 then
      (chNum (kwr.2.drop ws.length)).bind fun numr =>
        (lazyChEnd numr.2.length numr.2).map fun rest =>
          (kwr.1 ++ [' '] ++ numr.1.map upperChar, rest)
    else none

/-- Text before the first `'\n'` or case-insensitive `"<br"`, as
`split(/\n|<br/i)[0]` computes it. -/
def beforeNlBr : List Char → List Char
  | [] => []
  | c :: cs =>
    if c == '\n' then []
    else if (ciDropLit (str "<br") (c :: cs)).isSome then []
    else c :: beforeNlBr cs

/-- The `exec` loop over `chapterPattern`, also synthesising each chapter's
display name from the following 300 characters as the source does. -/
def scanChaptersAux (body : List Char) : Nat → Nat → List Char → List (Nat × List Char)
  | 0, _, _ => []
  | _ + 1, _, [] => []
  | fuel + 1, pos, c :: cs =>
    match tryChapterBody (c :: cs) with
    | some (label, rest) =>
      let consumed := (c :: cs).length - rest.length
      let after := (body.drop (pos + consumed)).take 300
      let titleLine := trimJs (stripHtml (beforeNlBr after))
      let name := if titleLine.isEmpty then label else label ++ str " - " ++ titleLine
      (pos, name) :: scanChaptersAux body fuel (pos + consumed) rest
    | none => scanChaptersAux body fuel (pos + 1) cs

def scanChapters (body : List Char) : List (Nat × List Char) :=
  scanChaptersAux body body.length 0 body

/-! ## Definition extraction (`extractDefinitions` in `lib/parser.ts`)

`/(?:\([a-z0-9]+\)\s*)?["“]([^"”]+)["”]\s*(?:refers to|means|shall mean|shall refer to|includes|has the meaning|is|are)\s+([^;]+[;.])/gi` -/

def isOpenQuote (c : Char) : Bool := c == '"' || c.toNat == 0x201C

def isCloseQuote (c : Char) : Bool := c == '"' || c.toNat == 0x201D

def isTermCh (c : Char) : Bool := !(c == '"') && !(c.toNat == 0x201D)

/-- The optional enumerator `(?:\([a-z0-9]+\)\s*)?`.  When the group does
not match, the following quote test fails at `'('` anyway, so the text is
returned unchanged in that case. -/
def dropEnumPfx (l : List Char) : List Char :=
  match l with
  | '(' :: t =>
    let run := t.takeWhile (fun c => isAsciiLetter c || isDigitCh c)
    if run.length ≥ 1 then
      match t.drop run.length with
      | ')' :: r => r.dropWhile isJsWs
      | _ => l
    else l
  | _ => l

/-- The defining-verb alternation, in source order.  No two alternatives
can match the same text, so first-match commitment is faithful. -/
def defVerb (l : List Char) : Option (List Char) :=
  match ciDropLit (str "refers to") l with
  | some r => some r
  | none =>
  match ciDropLit (str "means") l with
  | some r => some r
  | none =>
  match ciDropLit (str "shall mean") l with
  | some r => some r
  | none =>
  match ciDropLit (str "shall refer to") l with
  | some r => some r
  | none =>
  match ciDropLit (str "includes") l with
  | some r => some r
  | none =>
  match ciDropLit (str "has the meaning") l with
  | some r => some r
  | none =>
  match ciDropLit (str "is") l with
  | some r => some r
  | none => ciDropLit (str "are") l

/-- Index of the last `'.'` in a list, if any. -/
def lastDot (l : List Char) : Option Nat :=
  match l.reverse.findIdx? (· == '.') with
  | some i => some (l.length - 1 - i)
  | none => none

/-- Pattern `([^;]+[;.])` at the start of the text: the greedy non-semicolon run
up to a `';'`, or, without one, up to the last `'.'` (which must leave at
least one preceding character).  Returns the captured group (terminator
included) and the rest. -/
def bodyMatch (l : List Char) : Option (List Char × List Char) :=
  let run := l.takeWhile (fun c => !(c == ';'))
  if run.length ≥ 1 ∧ run.length < l.length then
    some (run ++ [';'], l.drop (run.length + 1))
  else
    match lastDot run with
    | some k => if 1 ≤ k then some (run.take k ++ ['.'], run.drop (k + 1)) else none
    | none => none

/-- Pattern `\s+([^;]+[;.])` after the verb: the engine first consumes the maximal
whitespace run, then backtracks it one character at a time; `j` counts the
whitespace characters still consumed. -/
def tryBodyFrom (lv : List Char) : Nat → Option (List Char × List Char)
  | 0 => none
  | j + 1 =>
    match bodyMatch (lv.drop (j + 1)) with
    | some r => some r
    | none => tryBodyFrom lv j

/-- One raw match of the definition pattern: the quoted term (group 1) and
the body with terminator (group 2). -/
structure RawDefMatch where
  term : List Char
  body : List Char
deriving DecidableEq

/-- A full attempt of the definition pattern at the current position. -/
def tryDefMatch (l : List Char) : Option (RawDefMatch × List Char) :=
  let l1 := dropEnumPfx l
  match l1 with
  | q :: l2 =>
    if isOpenQuote q then
      let term := l2.takeWhile isTermCh
      if term.length ≥ 1 then
        match l2.drop term.length with
        | cq :: l4 =>
          if isCloseQuote cq then
            let l5 := l4.dropWhile isJsWs
            match defVerb l5 with
            | some l6 =>
              let ws1 := (l6.takeWhile isJsWs).length
              match tryBodyFrom l6 ws1 with
              | some (g2, rest) => some (⟨term, g2⟩, rest)
              | none => none
            | none => none
          else none
        | [] => none
      else none
    else none
  | [] => none

/-- The `exec` loop over the definition pattern. -/
def scanDefsAux : Nat → List Char → List RawDefMatch
  | 0, _ => []
  | _ + 1, [] => []
  | fuel + 1, c :: cs =>
    match tryDefMatch (c :: cs) with
    | some (m, rest) =>
      if rest.length < (c :: cs).length then m :: scanDefsAux fuel rest
      else m :: scanDefsAux fuel cs
    | none => scanDefsAux fuel cs

/-- Model of `match[2].replace(/[;.]$/, '')`. -/
def dropTerm (g2 : List Char) : List Char :=
  match g2.getLast? with
  | some c => if c == ';' || c == '.' then g2.dropLast else g2
  | none => g2

/-- Model of `extractDefinitions` from `lib/parser.ts`: scan, then keep matches with
a non-empty term shorter than 100 characters and a body longer than 5
characters, capping the body at 4000 characters. -/
def extractDefinitions (text : List Char) (sourceProvision : List Char) :
    List ParsedDefinition :=
  (scanDefsAux text.length text).filterMap fun m =>
    let term := trimJs m.term
    let defn := trimJs (dropTerm m.body)
    if 0 < term.length ∧ term.length < 100 ∧ 5 < defn.length then
      some { term := term, definition := defn.take 4000,
             source_provision := sourceProvision }
    else none

/-! ## The per-section loop and deduplication of `parsePhilippineHtml` -/

/-- The inner chapter-attribution loop: the latest chapter whose offset is
`≤` the section's start offset wins (chapters are listed in match order). -/
def updateChapter (chapters : List (Nat × List Char)) (idx : Nat)
    (cur : List Char) : List Char :=
  chapters.foldl (fun c ch => if ch.1 ≤ idx then ch.2 else c) cur

/-- Model of `replace(/^\s*[-–—]\s*/, '')`. -/
def dropLeadDash (l : List Char) : List Char :=
  let l1 := l.dropWhile isJsWs
  match l1 with
  | c :: t =>
    if c == '-' || c.toNat == 0x2013 || c.toNat == 0x2014 then t.dropWhile isJsWs
    else l
  | [] => l

/-- Model of `replace(/^[-.\s]+/, '')`. -/
def dropLeadPunct (l : List Char) : List Char :=
  l.dropWhile (fun c => c == '-' || c == '.' || isJsWs c)

/-- Title derivation for one section: text before the first sentence-ending
period, else the first 200 characters, with leading dashes/dots cleaned. -/
def deriveTitle (titleText : List Char) : List Char :=
  let run := titleText.takeWhile (fun c => !(c == '.'))
  let base :=
    if run.length ≥ 1 ∧ run.length < titleText.length then
      trimJs (dropLeadDash run)
    else
      (trimJs (dropLeadDash titleText)).take 200
  trimJs (dropLeadPunct base)

/-- The end offset of the current section: the next boundary's offset, or
the end of the document for the last section. -/
def secNext (body : List Char) : List SecStart → Nat
  | [] => body.length
  | s2 :: _ => s2.idx

/-- The raw text of one section (`bodyHtml.substring(start.index, nextStart)`). -/
def secHtml (body : List Char) (s : SecStart) (next : Nat) : List Char :=
  (body.drop s.idx).take (next - s.idx)

/-- The first line after the section marker, stripped
(`stripHtml(afterMarker.split(/\n/)[0] ?? '')`). -/
def secTitleText (body : List Char) (s : SecStart) (next : Nat) : List Char :=
  stripHtml (((secHtml body s next).drop s.matchLen).takeWhile (fun c => !(c == '\n')))

/-- The derived section title. -/
def secTitle (body : List Char) (s : SecStart) (next : Nat) : List Char :=
  deriveTitle (secTitleText body s next)

/-- The stripped full section content. -/
def secContent (body : List Char) (s : SecStart) (next : Nat) : List Char :=
  stripHtml (secHtml body s next)

/-- The provision reference key (`sec${sectionNum.toLowerCase()}`). -/
def secRef (s : SecStart) : List Char := str "sec" ++ lowerStr s.num

/-- The provision record built for one section. -/
def secProv (body : List Char) (chapters : List (Nat × List Char))
    (cur : List Char) (s : SecStart) (next : Nat) : ParsedProvision :=
  { provision_ref := secRef s,
    chapter := if (updateChapter chapters s.idx cur).isEmpty then none
      else some (updateChapter chapters s.idx cur),
    sectionNum := s.num,
    title := secTitle body s next,
    content := (secContent body s next).take 12000 }

/-- The definition-bearing-section test on the derived title. -/
def titleHasDefKeyword (title : List Char) : Bool :=
  containsSub (str "definition") (lowerStr title) ||
  containsSub (str "interpretation") (lowerStr title) ||
  containsSub (str "terms") (lowerStr title)

/-- The per-section loop of `parsePhilippineHtml`: carve out the section's
text, derive title and content, keep the provision when the content
exceeds 10 characters (capped at 12000), and run definition extraction on
definition-bearing sections. -/
def sectionStep (body : List Char) (chapters : List (Nat × List Char)) :
    List Char → List SecStart → List ParsedProvision × List ParsedDefinition
  | _, [] => ([], [])
  | cur, s :: rest =>
    let next := secNext body rest
    let pushed : List ParsedProvision :=
      if 10 < (secContent body s next).length then
        [secProv body chapters cur s next]
      else []
    let defs :=
      if titleHasDefKeyword (secTitle body s next) then
        extractDefinitions (secContent body s next) (secRef s)
      else []
    let pd := sectionStep body chapters (updateChapter chapters s.idx cur) rest
    (pushed ++ pd.1, defs ++ pd.2)

/-- One step of the `Map`-based deduplication: replace the stored value in
place when the new one is strictly larger, else append a new key. -/
def dedupStep {α : Type} (key : α → List Char) (size : α → Nat)
    (acc : List (List Char × α)) (x : α) : List (List Char × α) :=
  if acc.any (fun kv => kv.1 == key x) then
    acc.map fun kv => if kv.1 == key x && decide (size kv.2 < size x) then (kv.1, x) else kv
  else acc ++ [(key x, x)]

/-- The `Map`-based dedup by key, keeping the largest value per key (first
occurrence wins ties and keeps its position), then `Array.from(values())`. -/
def dedupByKey {α : Type} (key : α → List Char) (size : α → Nat)
    (l : List α) : List α :=
  (l.foldl (dedupStep key size) []).map Prod.snd

/-! ## `parsePhilippineHtml` assembly -/

/-- Pattern `<body[^>]*>` at the current position. -/
def tryBodyOpen (l : List Char) : Option (List Char) :=
  (ciDropLit (str "<body") l).bind fun r =>
    let run := r.takeWhile (fun c => !(c == '>'))
    match r.drop run.length with
    | '>' :: rest => some rest
    | _ => none

/-- Split at the first case-insensitive occurrence of `pat`. -/
def splitAtCi (pat : List Char) : Nat → List Char → Option (List Char × List Char)
  | 0, l => (ciDropLit pat l).map fun r => ([], r)
  | fuel + 1, l =>
    match ciDropLit pat l with
    | some r => some ([], r)
    | none =>
      match l with
      | [] => none
      | c :: cs => (splitAtCi pat fuel cs).map fun pr => (c :: pr.1, pr.2)

/-- Model of `html.match(/<body[^>]*>([\s\S]*?)<\/body>/i)`: the body contents when
the pattern matches, else the whole document. -/
def bodyOfAux : Nat → List Char → Option (List Char)
  | 0, _ => none
  | _ + 1, [] => none
  | fuel + 1, c :: cs =>
    match tryBodyOpen (c :: cs) with
    | some rest =>
      match splitAtCi (str "</body>") rest.length rest with
      | some pr => some pr.1
      | none => bodyOfAux fuel cs
    | none => bodyOfAux fuel cs

def bodyOf (html : List Char) : List Char :=
  (bodyOfAux html.length html).getD html

/-- The provision/definition lists of `parsePhilippineHtml` before
deduplication. -/
def rawParse (html : List Char) : List ParsedProvision × List ParsedDefinition :=
  let body := bodyOf html
  sectionStep body (scanChapters body) [] (scanSections body)

/-- Model of `parsePhilippineHtml` from `lib/parser.ts`. -/
def parsePhilippineHtml (html : List Char) (act : ActIndexEntry) : ParsedAct :=
  let pd := rawParse html
  { id := act.id, actType := "statute", title := act.title,
    title_en := act.titleEn, short_name := act.shortName, status := act.status,
    issued_date := act.issuedDate, in_force_date := act.inForceDate,
    url := act.url, description := act.description,
    provisions := dedupByKey (fun p => p.provision_ref) (fun p => p.content.length) pd.1,
    definitions := dedupByKey (fun d => lowerStr d.term) (fun d => d.definition.length) pd.2 }

/-! ## Census index-page enumeration (`census.ts`)

`rowRe = /<tr[^>]*>\s*<td>\s*<a\s+href="(ra\d{4}\/ra_(\d+)_(\d{4})\.html)"[^>]*>Republic Act No\.\s*(\d+)<\/a>\s*<br\s*\/?>\s*([^<]+)<\/td>\s*<td>([\s\S]*?)<\/td>/gi` -/

/-- One matched index row (the regex capture groups used by the source). -/
structure IndexRow where
  href : List Char
  hrefYear : List Char
  dispNum : List Char
  dateStr : List Char
  titleHtml : List Char
deriving DecidableEq

/-- The `(ra\d{4}\/ra_(\d+)_(\d{4})\.html)` group: matched at the start of
`l`; returns `(group1 as original characters, yearDigits, numDigits, rest)`. -/
def tryHrefGroup (l : List Char) : Option (List Char × List Char × List Char × List Char) :=
  (ciDropLit (str "ra") l).bind fun r1 =>
    let y1 := r1.take 4
    if y1.length == 4 && y1.all isDigitCh then
      (ciDropLit (str "/ra_") (r1.drop 4)).bind fun r2 =>
        let num := r2.takeWhile isDigitCh
        if num.length ≥ 1 then
          match r2.drop num.length with
          | '_' :: r3 =>
            let y2 := r3.take 4
            if y2.length == 4 && y2.all isDigitCh then
              (ciDropLit (str ".html") (r3.drop 4)).map fun r4 =>
                let glen := 2 + 4 + 4 + num.length + 1 + 4 + 5
                (l.take glen, y2, num, r4)
            else none
          | _ => none
        else none
    else none

/-- A row-pattern attempt at the current position.

For the date cell, `\s*([^<]+)<\/td>` interacts by backtracking:
whitespace is also `[^<]`, so with `m` the length of the maximal
non-`<` run and `n ≤ m` the length of its whitespace head, the engine
matches whenever `m ≥ 1`, capturing the run from `min n (m - 1)` to `m`
— in particular an all-whitespace cell still matches, the group being
its last whitespace character. -/
def tryRowMatch (l : List Char) : Option (IndexRow × List Char) :=
  (ciDropLit (str "<tr") l).bind fun r1 =>
    let run1 := r1.takeWhile (fun c => !(c == '>'))
    match r1.drop run1.length with
    | '>' :: r2 =>
      (ciDropLit (str "<td>") (r2.dropWhile isJsWs)).bind fun r3 =>
        (ciDropLit (str "<a") (r3.dropWhile isJsWs)).bind fun r4 =>
          let ws := r4.takeWhile isJsWs
          if ws.length ≥ 1 then
            (ciDropLit (str "href=\"") (r4.drop ws.length)).bind fun r5 =>
              (tryHrefGroup r5).bind fun hg =>
                match hg.2.2.2 with
                | '"' :: r6 =>
                  let run2 := r6.takeWhile (fun c => !(c == '>'))
                  match r6.drop run2.length with
                  | '>' :: r7 =>
                    (ciDropLit (str "republic act no.") r7).bind fun r8 =>
                      let r9 := r8.dropWhile isJsWs
                      let num2 := r9.takeWhile isDigitCh
                      if num2.length ≥ 1 then
                        (ciDropLit (str "</a>") (r9.drop num2.length)).bind fun r10 =>
                          (ciDropLit (str "<br") (r10.dropWhile isJsWs)).bind fun r11 =>
                            let r12 := r11.dropWhile isJsWs
                            let r13 := match r12 with | '/' :: t => t | _ => r12
                            match r13 with
                            | '>' :: r14 =>
                              let m := (r14.takeWhile (fun c => !(c == '<'))).length
                              if m ≥ 1 then
                                let j := min (r14.takeWhile isJsWs).length (m - 1)
                                let dateRun := (r14.drop j).take (m - j)
                                (ciDropLit (str "</td>") (r14.drop m)).bind
                                  fun r15 =>
                                    (ciDropLit (str "<td>") (r15.dropWhile isJsWs)).bind fun r16 =>
                                      (splitAtCi (str "</td>") r16.length r16).map fun pr =>
                                        ({ href := hg.1, hrefYear := hg.2.1,
                                           dispNum := num2, dateStr := dateRun,
                                           titleHtml := pr.1 }, pr.2)
                              else none
                            | _ => none
                      else none
                  | _ => none
                | _ => none
          else none
    | _ => none

/-- The `exec` loop over `rowRe`. -/
def scanRowsAux : Nat → List Char → List IndexRow
  | 0, _ => []
  | _ + 1, [] => []
  | fuel + 1, c :: cs =>
    match tryRowMatch (c :: cs) with
    | some (row, rest) =>
      if rest.length < (c :: cs).length then row :: scanRowsAux fuel rest
      else row :: scanRowsAux fuel cs
    | none => scanRowsAux fuel cs

def scanRows (html : List Char) : List IndexRow := scanRowsAux html.length html

/-- Model of `parseMonth` from `census.ts`. -/
def parseMonth (m : List Char) : List Char :=
  let lm := lowerStr m
  if lm == str "january" then str "01"
  else if lm == str "february" then str "02"
  else if lm == str "march" then str "03"
  else if lm == str "april" then str "04"
  else if lm == str "may" then str "05"
  else if lm == str "june" then str "06"
  else if lm == str "july" then str "07"
  else if lm == str "august" then str "08"
  else if lm == str "september" then str "09"
  else if lm == str "october" then str "10"
  else if lm == str "november" then str "11"
  else if lm == str "december" then str "12"
  else str "01"

/-- Model of `parseDate` from `census.ts`:
`/^(\w+)\s+(\d{1,2}),?\s+(\d{4})$/` over the trimmed string, empty string
on failure. -/
def parseDate (dateStr : List Char) : List Char :=
  let t := trimJs dateStr
  let monthW := t.takeWhile isWordCh
  if monthW.length ≥ 1 then
    let r1 := t.drop monthW.length
    let ws1 := r1.takeWhile isJsWs
    if ws1.length ≥ 1 then
      let r2 := r1.drop ws1.length
      let day := r2.takeWhile isDigitCh
      if day.length == 1 || day.length == 2 then
        let r3 := r2.drop day.length
        let r4 := match r3 with | ',' :: u => u | _ => r3
        let ws2 := r4.takeWhile isJsWs
        if ws2.length ≥ 1 then
          let yr := r4.drop ws2.length
          if yr.length == 4 && yr.all isDigitCh then
            let dayPad := if day.length == 1 then '0' :: day else day
            yr ++ ['-'] ++ parseMonth monthW ++ ['-'] ++ dayPad
          else []
        else []
      else []
    else []
  else []

inductive LawCategory
  | republic_act | constitution | act
deriving DecidableEq

inductive LawClass
  | ingestable | inaccessible | metadata_only
deriving DecidableEq

/-- Model of `CensusLaw` from `census.ts`. -/
structure CensusLaw where
  id : List Char
  raNumber : Nat
  year : Nat
  title : List Char
  date : List Char
  url : List Char
  category : LawCategory
  classification : LawClass
deriving DecidableEq

/-- Model of `raToId` from `census.ts`. -/
def raToId (raNumber : Nat) : List Char := str "ra-" ++ natDecimal raNumber

/-- The law record built from one index row (the `isNaN` guard of the
source can never fire on all-digit captures). -/
def buildLaw (row : IndexRow) : CensusLaw :=
  { id := raToId (natOfDigits row.dispNum),
    raNumber := natOfDigits row.dispNum,
    year := natOfDigits row.hrefYear,
    title := stripHtmlCensus row.titleHtml,
    date := parseDate row.dateStr,
    url := str "https://lawphil.net/statutes/repacts/" ++ row.href,
    category := LawCategory.republic_act,
    classification := LawClass.ingestable }

/-- The id a row will be stored under. -/
def rowId (row : IndexRow) : List Char := raToId (natOfDigits row.dispNum)

/-- The dedup-by-id fold of `parseIndexPage` (`seen` set, first occurrence
kept). -/
def censusFold : List IndexRow → List (List Char) → List CensusLaw
  | [], _ => []
  | row :: rest, seen =>
    if seen.contains (rowId row) then censusFold rest seen
    else buildLaw row :: censusFold rest (rowId row :: seen)

/-- Model of `parseIndexPage` from `census.ts`. -/
def parseIndexPage (html : List Char) : List CensusLaw :=
  censusFold (scanRows html) []

/-! ## Rate-limited fetcher (`lib/fetcher.ts`) -/

/-- The fields of a `fetch` response that `fetchWithRateLimit` reads. -/
structure HttpResp where
  status : Nat
  body : List Char
  contentType : String
  respUrl : String
deriving DecidableEq

/-- Result of one request attempt: an HTTP response (any status) or a
network-level exception. -/
inductive AttemptOutcome
  | resp (r : HttpResp)
  | netErr
deriving DecidableEq

/-- The retry loop of `fetchWithRateLimit`, indexed by the current attempt
number and the remaining retries (`maxRetries - attempt`).  Returns the
number of request attempts performed and either the returned result or the
re-raised network error.  A response with status `429` or `≥ 500` is
retried while retries remain and is returned as-is once they are
exhausted; a network error is retried likewise and re-raised once
exhausted. -/
def fetchLoop (oracle : Nat → AttemptOutcome) : Nat → Nat → Nat × Except Unit HttpResp
  | 0, attempt =>
    match oracle attempt with
    | AttemptOutcome.resp r => (1, Except.ok r)
    | AttemptOutcome.netErr => (1, Except.error ())
  | rem + 1, attempt =>
    match oracle attempt with
    | AttemptOutcome.resp r =>
      if r.status == 429 || decide (r.status ≥ 500) then
        let nr := fetchLoop oracle rem (attempt + 1)
        (nr.1 + 1, nr.2)
      else (1, Except.ok r)
    | AttemptOutcome.netErr =>
      let nr := fetchLoop oracle rem (attempt + 1)
      (nr.1 + 1, nr.2)

/-- Model of `fetchWithRateLimit(url, maxRetries)`: the retry loop starting at
attempt 0 (the pacing `await rateLimit()` that precedes it is modelled by
`rateLimit` below). -/
def fetchWithRateLimit (oracle : Nat → AttemptOutcome) (maxRetries : Nat) :
    Nat × Except Unit HttpResp :=
  fetchLoop oracle maxRetries 0

/-- Constant `MIN_DELAY_MS` from `lib/fetcher.ts`. -/
def MIN_DELAY_MS : Nat := 500

/-- Model of `rateLimit()` from `lib/fetcher.ts`, as a function of the invocation
time `now`, the shared `lastRequestTime`, and a scheduler slack
`slack ≥ 0` (the time `setTimeout` oversleeps plus the re-read of
`Date.now()`); returns the new `lastRequestTime`, which is the moment the
request is issued. -/
def rateLimit (now last slack : Nat) : Nat :=
  if now - last < MIN_DELAY_MS then now + (MIN_DELAY_MS - (now - last)) + slack
  else now + slack

/-- Sequential fetch calls: each call is `(now, slack)`; the state is the
shared `lastRequestTime`.  Returns the request start time of each call. -/
def runCalls : Nat → List (Nat × Nat) → List Nat
  | _, [] => []
  | last, c :: rest =>
    let r := rateLimit c.1 last c.2
    r :: runCalls r rest

/-- Sequential execution: each call is invoked no earlier than the moment
the previous call's request was issued (the loop is strictly sequential,
so the next call starts only after the previous one completed). -/
def seqOk : Nat → List (Nat × Nat) → Prop
  | _, [] => True
  | last, c :: rest => last ≤ c.1 ∧ seqOk (rateLimit c.1 last c.2) rest

/-! ## Ingestion orchestrator (`fetchAndParseActs` in the ingest script) -/

/-- Per-document outcome of the fetch step as the orchestrator sees it: a
returned result (any status) or an exception after retries exhausted. -/
inductive FetchOutcome
  | ok (r : HttpResp)
  | netErr

/-- The orchestrator's environment: the run mode, the pre-existing seed
and source files, and the fetch outcome per document. -/
structure IngestEnv where
  skipFetch : Bool
  seeds : String → Option ParsedAct
  sources : String → Option (List Char)
  fetch : ActIndexEntry → FetchOutcome

/-- Model of `createFallbackSeed` from the ingest script. -/
def createFallbackSeed (act : ActIndexEntry) : ParsedAct :=
  { id := act.id, actType := "statute", title := act.title,
    title_en := act.titleEn, short_name := act.shortName, status := act.status,
    issued_date := act.issuedDate, in_force_date := act.inForceDate,
    url := act.url, description := act.description,
    provisions := [], definitions := [] }

/-- One iteration of the orchestrator loop: reuse the existing seed in
skip-fetch mode, else parse cached raw content in skip-fetch mode, else
fetch — falling back to a metadata-only record on a non-200 status or a
fetch exception.  The parser is total, so the defensive parse-error
fallback of the source is unreachable in the model. -/
def processAct (env : IngestEnv) (act : ActIndexEntry) : ParsedAct :=
  match env.skipFetch, env.seeds act.id with
  | true, some cached => cached
  | _, _ =>
    match (if env.skipFetch then env.sources act.id else none) with
    | some html => parsePhilippineHtml html act
    | none =>
      match env.fetch act with
      | FetchOutcome.ok r =>
        if r.status ≠ 200 then createFallbackSeed act
        else parsePhilippineHtml r.body act
      | FetchOutcome.netErr => createFallbackSeed act

/-- The orchestrator loop: one terminal record per work-list document. -/
def runIngest (env : IngestEnv) (acts : List ActIndexEntry) : List ParsedAct :=
  acts.map (processAct env)

/-- Seed files are keyed by document id and are only ever written by this
pipeline, which always stores a record whose id is the file key. -/
def SeedsWellKeyed (seeds : String → Option ParsedAct) : Prop :=
  ∀ id r, seeds id = some r → r.id = id

/-! ## `KEY_PHILIPPINE_ACTS` (`lib/parser.ts`) -/

/-- The first entry of the pre-configured work list (the Data Privacy
Act). -/
def dpaAct : ActIndexEntry :=
  { id := "ra-10173-data-privacy-act", title := "Data Privacy Act of 2012",
    titleEn := "Data Privacy Act of 2012", shortName := "RA 10173",
    status := ActStatus.in_force, issuedDate := "2012-08-15",
    inForceDate := "2012-09-08",
    url := "https://lawphil.net/statutes/repacts/ra2012/ra_10173_2012.html",
    description := some "Comprehensive data protection law establishing the National Privacy Commission (NPC); protects individual personal information in information and communications systems" }

/-- The pre-configured work list of the ingest script. -/
def keyPhilippineActs : List ActIndexEntry :=
  [ dpaAct,
    { id := "ra-10175-cybercrime-prevention", title := "Cybercrime Prevention Act of 2012",
      titleEn := "Cybercrime Prevention Act of 2012", shortName := "RA 10175",
      status := ActStatus.in_force, issuedDate := "2012-09-12",
      inForceDate := "2012-10-03",
      url := "https://lawphil.net/statutes/repacts/ra2012/ra_10175_2012.html",
      description := some "Defines and penalises cybercrimes including illegal access, data interference, cybersex, child pornography, identity theft, and online libel" },
    { id := "ra-11934-sim-registration", title := "SIM Registration Act",
      titleEn := "SIM Registration Act", shortName := "RA 11934",
      status := ActStatus.in_force, issuedDate := "2022-10-10",
      inForceDate := "2022-12-27",
      url := "https://lawphil.net/statutes/repacts/ra2022/ra_11934_2022.html",
      description := some "Requires registration of all SIM cards and social media accounts with telecommunications providers; aimed at deterring crimes committed through mobile phones and the internet" },
    { id := "ra-8792-e-commerce", title := "Electronic Commerce Act of 2000",
      titleEn := "Electronic Commerce Act of 2000", shortName := "RA 8792",
      status := ActStatus.in_force, issuedDate := "2000-06-14",
      inForceDate := "2000-06-14",
      url := "https://lawphil.net/statutes/repacts/ra2000/ra_8792_2000.html",
      description := some "Provides legal recognition and admissibility of electronic documents, electronic signatures, and electronic commerce transactions" },
    { id := "ra-11232-revised-corporation-code", title := "Revised Corporation Code of the Philippines",
      titleEn := "Revised Corporation Code of the Philippines", shortName := "RA 11232",
      status := ActStatus.in_force, issuedDate := "2019-02-20",
      inForceDate := "2019-02-23",
      url := "https://lawphil.net/statutes/repacts/ra2019/ra_11232_2019.html",
      description := some "Modernised corporate governance framework; introduces perpetual corporate existence, one-person corporations, and remote board meetings" },
    { id := "ra-7394-consumer-act", title := "Consumer Act of the Philippines",
      titleEn := "Consumer Act of the Philippines", shortName := "RA 7394",
      status := ActStatus.in_force, issuedDate := "1992-04-13",
      inForceDate := "1992-04-13",
      url := "https://lawphil.net/statutes/repacts/ra1992/ra_7394_1992.html",
      description := some "Comprehensive consumer protection legislation covering product quality, labelling, warranties, price regulation, and consumer redress" },
    { id := "constitution-1987", title := "1987 Constitution of the Republic of the Philippines",
      titleEn := "1987 Constitution of the Republic of the Philippines", shortName := "1987 Constitution",
      status := ActStatus.in_force, issuedDate := "1987-02-02",
      inForceDate := "1987-02-02",
      url := "https://lawphil.net/consti/cons1987.html",
      description := some "Supreme law of the Philippines; Article III (Bill of Rights) protects privacy of communication and correspondence (Sec. 3), due process (Sec. 1), and freedom of expression (Sec. 4)" },
    { id := "act-3815-revised-penal-code", title := "Revised Penal Code",
      titleEn := "Revised Penal Code", shortName := "Act No. 3815",
      status := ActStatus.in_force, issuedDate := "1930-12-08",
      inForceDate := "1932-01-01",
      url := "https://lawphil.net/statutes/acts/act1930/act_3815_1930.html",
      description := some "Primary criminal law of the Philippines; covers offences against persons, property, public interest, and public order; Articles relevant to computer fraud and electronic document forgery" },
    { id := "ra-8484-access-devices-regulation", title := "Access Devices Regulation Act of 1998",
      titleEn := "Access Devices Regulation Act of 1998", shortName := "RA 8484",
      status := ActStatus.in_force, issuedDate := "1998-02-11",
      inForceDate := "1998-02-11",
      url := "https://lawphil.net/statutes/repacts/ra1998/ra_8484_1998.html",
      description := some "Regulates access devices (credit cards, debit cards, account numbers); penalises fraud, counterfeiting, and unauthorised use of access devices" },
    { id := "ra-9995-anti-voyeurism", title := "Anti-Photo and Video Voyeurism Act of 2009",
      titleEn := "Anti-Photo and Video Voyeurism Act of 2009", shortName := "RA 9995",
      status := ActStatus.in_force, issuedDate := "2010-02-15",
      inForceDate := "2010-02-15",
      url := "https://lawphil.net/statutes/repacts/ra2010/ra_9995_2010.html",
      description := some "Prohibits taking, copying, reproducing, selling, or distributing photos, videos, or recordings of sexual acts without consent; addresses revenge porn and non-consensual intimate images" } ]

/-! ## Helper lemmas: lengths of string primitives -/

theorem ciDropLit_length {p l r : List Char} (h : ciDropLit p l = some r) :
    l.length = p.length + r.length := by
  induction p generalizing l with
  | nil => simp [ciDropLit] at h; simp [h]
  | cons x xs ih =>
    cases l with
    | nil => simp [ciDropLit] at h
    | cons c cs =>
      simp only [ciDropLit] at h
      split at h
      · have := ih h
        simp [List.length_cons, this]
        omega
      · exact absurd h (by simp)

theorem length_dropWhile_le {α : Type} (p : α → Bool) (l : List α) :
    (l.dropWhile p).length ≤ l.length := by
  induction l with
  | nil => simp
  | cons c cs ih =>
    rw [List.dropWhile_cons]
    split
    · exact Nat.le_trans ih (Nat.le_succ _)
    · exact Nat.le_refl _

theorem trimJs_length_le (l : List Char) : (trimJs l).length ≤ l.length := by
  unfold trimJs
  have h1 : (l.dropWhile isJsWs).length ≤ l.length := length_dropWhile_le isJsWs l
  have h2 : ((l.dropWhile isJsWs).reverse.dropWhile isJsWs).length ≤
      (l.dropWhile isJsWs).reverse.length :=
    length_dropWhile_le isJsWs _
  simp only [List.length_reverse] at *
  omega

theorem dropTerm_length_le (l : List Char) : (dropTerm l).length ≤ l.length := by
  unfold dropTerm
  cases h : l.getLast? with
  | none => simp
  | some c =>
    simp only
    split
    · exact Nat.le_trans (Nat.le_of_eq l.length_dropLast) (Nat.sub_le _ _)
    · exact Nat.le_refl _

/-! ## Helper lemmas: the `Map`-based deduplication -/

section DedupLemmas

variable {α : Type} (key : α → List Char) (size : α → Nat)

theorem dedupStep_fst_mem {acc : List (List Char × α)} {x : α}
    {kv : List Char × α} (h : kv ∈ dedupStep key size acc x) :
    kv.1 ∈ acc.map Prod.fst ∨ kv.1 = key x := by
  unfold dedupStep at h
  split at h
  · rw [List.mem_map] at h
    obtain ⟨kv', hkv', he⟩ := h
    split at he
    · left; exact List.mem_map.mpr ⟨kv', hkv', by rw [← he]⟩
    · left; exact List.mem_map.mpr ⟨kv', hkv', by rw [← he]⟩
  · rcases List.mem_append.mp h with h' | h'
    · left; exact List.mem_map.mpr ⟨kv, h', rfl⟩
    · right; simp at h'; simp [h']

theorem dedupStep_map_fst (acc : List (List Char × α)) (x : α) :
    (dedupStep key size acc x).map Prod.fst =
      if (acc.any fun kv => kv.1 == key x) then acc.map Prod.fst
      else acc.map Prod.fst ++ [key x] := by
  unfold dedupStep
  split
  · rw [List.map_map]
    apply List.map_congr_left
    intro kv _
    simp only [Function.comp_apply]
    split <;> rfl
  · rename_i hany
    simp only [Bool.not_eq_true] at hany
    simp [hany]

theorem dedupFold_nodup_keys (l : List α) :
    ∀ acc : List (List Char × α), (acc.map Prod.fst).Nodup →
      ((l.foldl (dedupStep key size) acc).map Prod.fst).Nodup := by
  induction l with
  | nil => intro acc h; rw [List.foldl_nil]; exact h
  | cons x xs ih =>
    intro acc h
    rw [List.foldl_cons]
    apply ih
    rw [dedupStep_map_fst]
    split
    · exact h
    · rename_i hany
      rw [List.nodup_append]
      refine ⟨h, List.nodup_singleton _, ?_⟩
      intro a ha
      simp only [List.mem_singleton]
      intro heq
      subst heq
      rw [List.any_eq_true] at hany
      rw [List.mem_map] at ha
      obtain ⟨kv, hkv, hfst⟩ := ha
      exact hany ⟨kv, hkv, by simp [hfst]⟩

theorem dedupStep_key_inv (acc : List (List Char × α)) (x : α)
    (hacc : ∀ kv ∈ acc, key kv.2 = kv.1) :
    ∀ kv ∈ dedupStep key size acc x, key kv.2 = kv.1 := by
  intro kv hkv
  unfold dedupStep at hkv
  split at hkv
  · rw [List.mem_map] at hkv
    obtain ⟨kv', hkv', he⟩ := hkv
    split at he
    · rename_i hcond
      rw [← he]
      simp only
      have := (beq_iff_eq.mp (Bool.and_elim_left hcond))
      rw [this]
    · rw [← he]; exact hacc kv' hkv'
  · rcases List.mem_append.mp hkv with h' | h'
    · exact hacc kv h'
    · simp at h'; simp [h']

theorem dedupFold_key_inv (l : List α) :
    ∀ acc : List (List Char × α), (∀ kv ∈ acc, key kv.2 = kv.1) →
      ∀ kv ∈ l.foldl (dedupStep key size) acc, key kv.2 = kv.1 := by
  induction l with
  | nil => intro acc h; rw [List.foldl_nil]; exact h
  | cons x xs ih =>
    intro acc h
    rw [List.foldl_cons]
    exact ih _ (dedupStep_key_inv key size acc x h)

theorem dedupStep_snd_mem {acc : List (List Char × α)} {x : α}
    {kv : List Char × α} (h : kv ∈ dedupStep key size acc x) :
    kv.2 = x ∨ kv ∈ acc := by
  unfold dedupStep at h
  split at h
  · rw [List.mem_map] at h
    obtain ⟨kv', hkv', he⟩ := h
    split at he
    · left; rw [← he]
    · right; rw [← he]; exact hkv'
  · rcases List.mem_append.mp h with h' | h'
    · right; exact h'
    · left; simp at h'; simp [h']

theorem dedupFold_snd_mem (l : List α) :
    ∀ (acc : List (List Char × α)) (kv : List Char × α),
      kv ∈ l.foldl (dedupStep key size) acc → kv.2 ∈ l ∨ kv ∈ acc := by
  induction l with
  | nil => intro acc kv h; right; rw [List.foldl_nil] at h; exact h
  | cons x xs ih =>
    intro acc kv h
    rw [List.foldl_cons] at h
    rcases ih _ kv h with h' | h'
    · left; exact List.mem_cons_of_mem _ h'
    · rcases dedupStep_snd_mem key size h' with h'' | h''
      · left; rw [h'']; exact List.mem_cons_self _ _
      · right; exact h''

/-- Every value of the deduplicated list comes from the input list. -/
theorem dedupByKey_mem {l : List α} {v : α} (h : v ∈ dedupByKey key size l) :
    v ∈ l := by
  unfold dedupByKey at h
  rw [List.mem_map] at h
  obtain ⟨kv, hkv, he⟩ := h
  rcases dedupFold_snd_mem key size l [] kv hkv with h' | h'
  · rw [← he]; exact h'
  · simp at h'

theorem dedupStep_mono (acc : List (List Char × α)) (x : α)
    {kv : List Char × α} (h : kv ∈ acc) :
    ∃ kv' ∈ dedupStep key size acc x, kv'.1 = kv.1 ∧ size kv.2 ≤ size kv'.2 := by
  unfold dedupStep
  split
  · by_cases hc : (kv.1 == key x && decide (size kv.2 < size x)) = true
    · refine ⟨(kv.1, x), List.mem_map.mpr ⟨kv, h, by rw [if_pos hc]⟩, rfl, ?_⟩
      exact Nat.le_of_lt (of_decide_eq_true (Bool.and_elim_right hc))
    · exact ⟨kv, List.mem_map.mpr ⟨kv, h, by rw [if_neg hc]⟩, rfl, Nat.le_refl _⟩
  · exact ⟨kv, List.mem_append_left _ h, rfl, Nat.le_refl _⟩

theorem dedupFold_mono (l : List α) :
    ∀ (acc : List (List Char × α)) (kv : List Char × α), kv ∈ acc →
      ∃ kv' ∈ l.foldl (dedupStep key size) acc, kv'.1 = kv.1 ∧ size kv.2 ≤ size kv'.2 := by
  induction l with
  | nil => intro acc kv h; exact ⟨kv, by rw [List.foldl_nil]; exact h, rfl, Nat.le_refl _⟩
  | cons x xs ih =>
    intro acc kv h
    obtain ⟨kv1, h1, he1, hs1⟩ := dedupStep_mono key size acc x h
    obtain ⟨kv2, h2, he2, hs2⟩ := ih _ kv1 h1
    exact ⟨kv2, by rw [List.foldl_cons]; exact h2, by rw [he2, he1],
      Nat.le_trans hs1 hs2⟩

theorem dedupStep_self (acc : List (List Char × α)) (x : α) :
    ∃ kv ∈ dedupStep key size acc x, kv.1 = key x ∧ size x ≤ size kv.2 := by
  unfold dedupStep
  split
  · rename_i hany
    rw [List.any_eq_true] at hany
    obtain ⟨kv0, hkv0, hb⟩ := hany
    have hk0 : kv0.1 = key x := beq_iff_eq.mp hb
    by_cases hc : (kv0.1 == key x && decide (size kv0.2 < size x)) = true
    · refine ⟨(kv0.1, x), List.mem_map.mpr ⟨kv0, hkv0, by rw [if_pos hc]⟩,
        hk0, Nat.le_refl _⟩
    · refine ⟨kv0, List.mem_map.mpr ⟨kv0, hkv0, by rw [if_neg hc]⟩, hk0, ?_⟩
      rw [hk0, beq_self_eq_true, Bool.true_and] at hc
      exact Nat.le_of_not_lt (fun hlt => hc (decide_eq_true hlt))
  · exact ⟨(key x, x), List.mem_append_right _ (List.mem_singleton.mpr rfl),
      rfl, Nat.le_refl _⟩

/-- Every input element is dominated by the entry stored at its key. -/
theorem dedupFold_max (l : List α) :
    ∀ (acc : List (List Char × α)) (y : α), y ∈ l →
      ∃ kv ∈ l.foldl (dedupStep key size) acc, kv.1 = key y ∧ size y ≤ size kv.2 := by
  induction l with
  | nil => intro acc y h; simp at h
  | cons x xs ih =>
    intro acc y h
    rcases List.mem_cons.mp h with h' | h'
    · subst h'
      obtain ⟨kv0, h0, he0, hs0⟩ := dedupStep_self key size acc y
      obtain ⟨kv1, h1, he1, hs1⟩ := dedupFold_mono key size xs _ kv0 h0
      exact ⟨kv1, by rw [List.foldl_cons]; exact h1, by rw [he1, he0],
        Nat.le_trans hs0 hs1⟩
    · obtain ⟨kv1, h1, he1, hs1⟩ := ih (dedupStep key size acc x) y h'
      exact ⟨kv1, by rw [List.foldl_cons]; exact h1, he1, hs1⟩

/-- The keys of the deduplicated output are pairwise distinct. -/
theorem dedupByKey_nodup_map (l : List α) :
    ((dedupByKey key size l).map key).Nodup := by
  unfold dedupByKey
  rw [List.map_map]
  have hinv := dedupFold_key_inv key size l [] (by intro kv h; simp at h)
  have : (l.foldl (dedupStep key size) []).map (key ∘ Prod.snd) =
      (l.foldl (dedupStep key size) []).map Prod.fst :=
    List.map_congr_left fun kv hkv => hinv kv hkv
  rw [this]
  exact dedupFold_nodup_keys key size l [] (by simp)

/-- Every input element is dominated by an output element with its key. -/
theorem dedupByKey_exists_rep {l : List α} {y : α} (hy : y ∈ l) :
    ∃ v ∈ dedupByKey key size l, key v = key y ∧ size y ≤ size v := by
  obtain ⟨kv, hkv, hk, hs⟩ := dedupFold_max key size l [] y hy
  have hinv := dedupFold_key_inv key size l [] (by intro kv h; simp at h)
  exact ⟨kv.2, List.mem_map.mpr ⟨kv, hkv, rfl⟩, by rw [hinv kv hkv, hk], hs⟩

/-- In a `Nodup` list, exactly one element is `==` to a member. -/
theorem countP_beq_eq_one_of_nodup {β : Type} [DecidableEq β] {l : List β}
    (hnd : l.Nodup) {a : β} (ha : a ∈ l) :
    l.countP (fun b => decide (b = a)) = 1 := by
  induction l with
  | nil => simp at ha
  | cons x xs ih =>
    rw [List.countP_cons]
    rcases List.mem_cons.mp ha with h' | h'
    · have hnotin : x ∉ xs := (List.nodup_cons.mp hnd).1
      have hz : xs.countP (fun b => decide (b = a)) = 0 := by
        rw [List.countP_eq_zero]
        intro b hb
        simp only [decide_eq_true_eq]
        intro hba
        rw [hba, h'] at hb
        exact hnotin hb
      have hx : decide (x = a) = true := decide_eq_true h'.symm
      rw [hz, hx]
      simp
    · have h1 := ih (List.nodup_cons.mp hnd).2 h'
      have hxa : ¬(x = a) := fun hxa => (List.nodup_cons.mp hnd).1 (hxa ▸ h')
      simp [h1, hxa]

/-- Exactly one output element carries the key of any given input
element. -/
theorem dedupByKey_countP_eq_one {l : List α} {y : α} (hy : y ∈ l) :
    (dedupByKey key size l).countP (fun v => key v == key y) = 1 := by
  unfold dedupByKey
  rw [List.countP_map]
  have hinv := dedupFold_key_inv key size l [] (by intro kv h; simp at h)
  have hcong : ∀ kv ∈ l.foldl (dedupStep key size) [],
      (((fun v => key v == key y) ∘ Prod.snd) kv = true ↔
        (fun kv : List Char × α => decide (kv.1 = key y)) kv = true) := by
    intro kv hkv
    simp only [Function.comp_apply, beq_iff_eq, decide_eq_true_eq]
    rw [hinv kv hkv]
  rw [List.countP_congr hcong]
  have h1 : (l.foldl (dedupStep key size) []).countP (fun kv => decide (kv.1 = key y)) =
      ((l.foldl (dedupStep key size) []).map Prod.fst).countP (fun k => decide (k = key y)) := by
    rw [List.countP_map]
    rfl
  rw [h1]
  apply countP_beq_eq_one_of_nodup
  · exact dedupFold_nodup_keys key size l [] (by simp)
  · obtain ⟨kv, hkv, hk, _⟩ := dedupFold_max key size l [] y hy
    exact List.mem_map.mpr ⟨kv, hkv, hk⟩

/-- Entries of the dedup fold are uniquely determined by their key. -/
theorem dedupFold_entry_unique {l : List α} {kv kv' : List Char × α}
    (h : kv ∈ l.foldl (dedupStep key size) [])
    (h' : kv' ∈ l.foldl (dedupStep key size) []) (he : kv.1 = kv'.1) :
    kv = kv' :=
  List.inj_on_of_nodup_map (dedupFold_nodup_keys key size l [] (by simp)) h h' he

end DedupLemmas

/-! ## Helper lemmas: lengths inside `tryDefMatch` -/

theorem length_takeWhile_le {α : Type} (p : α → Bool) (l : List α) :
    (l.takeWhile p).length ≤ l.length := by
  induction l with
  | nil => simp
  | cons c cs ih =>
    rw [List.takeWhile_cons]
    split
    · simpa using ih
    · simp

theorem dropEnumPfx_length_le (l : List Char) :
    (dropEnumPfx l).length ≤ l.length := by
  simp only [dropEnumPfx]
  split
  · rename_i t
    split
    · split
      · rename_i r heq
        have h1 : (t.drop (t.takeWhile fun c => isAsciiLetter c || isDigitCh c).length).length
            ≤ t.length := by rw [List.length_drop]; omega
        have h2 : r.length + 1 =
            (t.drop (t.takeWhile fun c => isAsciiLetter c || isDigitCh c).length).length := by
          rw [heq]; simp
        have h3 : (r.dropWhile isJsWs).length ≤ r.length := length_dropWhile_le isJsWs r
        simp only [List.length_cons]
        omega
      · exact Nat.le_refl _
    · exact Nat.le_refl _
  · exact Nat.le_refl _

theorem defVerb_length {l r : List Char} (h : defVerb l = some r) :
    2 + r.length ≤ l.length := by
  unfold defVerb at h
  repeat' split at h
  all_goals first
    | (rename_i heq
       rw [Option.some_inj] at h
       subst h
       have hlen := ciDropLit_length heq
       simp [str] at hlen
       omega)
    | (have hlen := ciDropLit_length h
       simp [str] at hlen
       omega)
    | exact absurd h (by simp)

theorem lastDot_lt {l : List Char} {k : Nat} (h : lastDot l = some k) :
    k < l.length := by
  unfold lastDot at h
  split at h
  · rename_i i heq
    rw [Option.some_inj] at h
    cases l with
    | nil => simp [List.findIdx?] at heq
    | cons c cs => simp at h ⊢; omega
  · exact absurd h (by simp)

theorem bodyMatch_length {l g2 rest : List Char}
    (h : bodyMatch l = some (g2, rest)) : 1 ≤ g2.length ∧ g2.length ≤ l.length := by
  simp only [bodyMatch] at h
  split at h
  · rename_i hc
    rw [Option.some_inj, Prod.mk.injEq] at h
    obtain ⟨h1, _⟩ := h
    have hrun : (l.takeWhile fun c => !(c == ';')).length ≤ l.length :=
      length_takeWhile_le _ l
    subst h1
    simp only [List.length_append, List.length_singleton]
    omega
  · split at h
    · rename_i k hlast
      split at h
      · rw [Option.some_inj, Prod.mk.injEq] at h
        obtain ⟨h1, _⟩ := h
        have hk := lastDot_lt hlast
        have hrun : (l.takeWhile fun c => !(c == ';')).length ≤ l.length :=
          length_takeWhile_le _ l
        subst h1
        simp only [List.length_append, List.length_singleton, List.length_take]
        omega
      · exact absurd h (by simp)
    · exact absurd h (by simp)

theorem tryBodyFrom_length {lv g2 rest : List Char} :
    ∀ {j : Nat}, tryBodyFrom lv j = some (g2, rest) → g2.length + 1 ≤ lv.length := by
  intro j
  induction j with
  | zero => intro h; exact absurd h (by simp [tryBodyFrom])
  | succ j ih =>
    intro h
    unfold tryBodyFrom at h
    cases heq : bodyMatch (lv.drop (j + 1)) with
    | some r =>
      obtain ⟨g2', rest'⟩ := r
      simp only [heq, Option.some_inj] at h
      obtain ⟨hb1, hb2⟩ := bodyMatch_length heq
      rw [List.length_drop] at hb2
      rw [Prod.mk.injEq] at h
      obtain ⟨h1, _⟩ := h
      subst h1
      omega
    | none =>
      simp only [heq] at h
      exact ih h

theorem tryDefMatch_length {l : List Char} {m : RawDefMatch} {rest : List Char}
    (h : tryDefMatch l = some (m, rest)) : 6 + m.body.length ≤ l.length := by
  have hpfx := dropEnumPfx_length_le l
  simp only [tryDefMatch] at h
  cases heq1 : dropEnumPfx l with
  | nil => simp [heq1] at h
  | cons q l2 =>
    simp only [heq1] at h
    rw [heq1] at hpfx
    simp only [List.length_cons] at hpfx
    by_cases hq : isOpenQuote q = true
    · rw [if_pos hq] at h
      by_cases hterm : (l2.takeWhile isTermCh).length ≥ 1
      · rw [if_pos hterm] at h
        cases heq2 : l2.drop (l2.takeWhile isTermCh).length with
        | nil => simp [heq2] at h
        | cons cq l4 =>
          simp only [heq2] at h
          by_cases hcq : isCloseQuote cq = true
          · rw [if_pos hcq] at h
            cases heq3 : defVerb (l4.dropWhile isJsWs) with
            | none => simp [heq3] at h
            | some l6 =>
              simp only [heq3] at h
              have hverbLen := defVerb_length heq3
              cases heq4 : tryBodyFrom l6 (l6.takeWhile isJsWs).length with
              | none => simp [heq4] at h
              | some r =>
                obtain ⟨g2, rest'⟩ := r
                simp only [heq4] at h
                simp only [Option.some_inj, Prod.mk.injEq] at h
                obtain ⟨hm, _⟩ := h
                have hbody := tryBodyFrom_length heq4
                have hterm_le : (l2.takeWhile isTermCh).length ≤ l2.length :=
                  length_takeWhile_le _ l2
                have hl4 : (cq :: l4).length = (l2.drop (l2.takeWhile isTermCh).length).length := by
                  rw [heq2]
                simp only [List.length_cons, List.length_drop] at hl4
                have hl5 : (l4.dropWhile isJsWs).length ≤ l4.length :=
                  length_dropWhile_le isJsWs l4
                rw [← hm]
                simp only
                omega
          · rw [if_neg hcq] at h; exact absurd h (by simp)
      · rw [if_neg hterm] at h; exact absurd h (by simp)
    · rw [if_neg hq] at h; exact absurd h (by simp)

theorem scanDefsAux_body_length {m : RawDefMatch} :
    ∀ {fuel : Nat} {l : List Char}, m ∈ scanDefsAux fuel l → 6 + m.body.length ≤ l.length := by
  intro fuel
  induction fuel with
  | zero => intro l h; exact absurd h (by simp [scanDefsAux])
  | succ fuel ih =>
    intro l h
    cases l with
    | nil => exact absurd h (by simp [scanDefsAux])
    | cons c cs =>
      unfold scanDefsAux at h
      split at h
      · rename_i m' rest heq
        split at h
        · rcases List.mem_cons.mp h with h' | h'
          · subst h'; exact tryDefMatch_length heq
          · have := ih h'
            rename_i hlt
            simp only [List.length_cons] at *
            omega
        · rcases List.mem_cons.mp h with h' | h'
          · subst h'; exact tryDefMatch_length heq
          · have := ih h'
            simp only [List.length_cons]
            omega
      · have := ih h
        simp only [List.length_cons]
        omega

/-- A definition is only ever extracted from text longer than 10
characters: the match needs two quotes, a term, a verb, whitespace and a
body that still exceeds 5 characters after trimming. -/
theorem extractDefinitions_text_length {text ref : List Char} {d : ParsedDefinition}
    (h : d ∈ extractDefinitions text ref) : 10 < text.length := by
  unfold extractDefinitions at h
  rw [List.mem_filterMap] at h
  obtain ⟨m, hm, hf⟩ := h
  have hlen := scanDefsAux_body_length hm
  dsimp only at hf
  split at hf
  · rename_i hcond
    obtain ⟨_, _, h5⟩ := hcond
    have ht := trimJs_length_le (dropTerm m.body)
    have hd := dropTerm_length_le m.body
    omega
  · exact absurd hf (by simp)

/-- Extracted definitions carry the provision reference they came from. -/
theorem extractDefinitions_source {text ref : List Char} {d : ParsedDefinition}
    (h : d ∈ extractDefinitions text ref) : d.source_provision = ref := by
  unfold extractDefinitions at h
  rw [List.mem_filterMap] at h
  obtain ⟨m, _, hf⟩ := h
  dsimp only at hf
  split at hf
  · rw [Option.some_inj] at hf; rw [← hf]
  · exact absurd hf (by simp)

/-! ## Helper lemmas: the per-section loop -/

/-- Every provision pushed by the section loop has a stripped body longer
than 10 characters and a stored body of at most 12000 characters. -/
theorem sectionStep_content_bounds (body : List Char)
    (chapters : List (Nat × List Char)) :
    ∀ (starts : List SecStart) (cur : List Char) (p : ParsedProvision),
      p ∈ (sectionStep body chapters cur starts).1 →
      10 < p.content.length ∧ p.content.length ≤ 12000 := by
  intro starts
  induction starts with
  | nil => intro cur p hp; simp [sectionStep] at hp
  | cons s rest ih =>
    intro cur p hp
    simp only [sectionStep] at hp
    rcases List.mem_append.mp hp with h1 | h2
    · split at h1
      · rename_i hcond
        rw [List.mem_singleton] at h1
        subst h1
        simp only [secProv, List.length_take]
        omega
      · simp at h1
    · exact ih _ p h2

/-- Every definition produced by the section loop points back at a
provision the loop also pushed. -/
theorem sectionStep_def_source (body : List Char)
    (chapters : List (Nat × List Char)) :
    ∀ (starts : List SecStart) (cur : List Char) (d : ParsedDefinition),
      d ∈ (sectionStep body chapters cur starts).2 →
      ∃ p ∈ (sectionStep body chapters cur starts).1,
        p.provision_ref = d.source_provision := by
  intro starts
  induction starts with
  | nil => intro cur d hd; simp [sectionStep] at hd
  | cons s rest ih =>
    intro cur d hd
    simp only [sectionStep] at hd
    rcases List.mem_append.mp hd with h1 | h2
    · split at h1
      · rename_i htitle
        have hsrc := extractDefinitions_source h1
        have hlen := extractDefinitions_text_length h1
        refine ⟨secProv body chapters cur s (secNext body rest), ?_, ?_⟩
        · simp only [sectionStep]
          apply List.mem_append_left
          rw [if_pos hlen]
          exact List.mem_singleton.mpr rfl
        · rw [hsrc]; rfl
      · simp at h1
    · obtain ⟨p, hp, he⟩ := ih _ d h2
      refine ⟨p, ?_, he⟩
      simp only [sectionStep]
      exact List.mem_append_right _ hp

/-! ## Claim theorems: parser invariants -/

/-- C4: For every ActRecord returned by the parser, provision reference
keys are pairwise distinct and definition terms are pairwise distinct when
compared case-insensitively. -/
theorem parse_uniqueness (html : List Char) (act : ActIndexEntry) :
    ((parsePhilippineHtml html act).provisions.map (fun p => p.provision_ref)).Nodup ∧
    ((parsePhilippineHtml html act).definitions.map (fun d => lowerStr d.term)).Nodup := by
  constructor
  · have h := dedupByKey_nodup_map (fun p : ParsedProvision => p.provision_ref)
      (fun p => p.content.length) (rawParse html).1
    simpa [parsePhilippineHtml] using h
  · have h := dedupByKey_nodup_map (fun d : ParsedDefinition => lowerStr d.term)
      (fun d => d.definition.length) (rawParse html).2
    simpa [parsePhilippineHtml] using h

/-- C8: Every candidate section whose stripped body is at most 10
characters yields no provision (every emitted provision's body exceeds
10 characters), and every emitted provision's body is capped at 12000
characters. -/
theorem parse_content_bounds (html : List Char) (act : ActIndexEntry) :
    ∀ p, p ∈ (parsePhilippineHtml html act).provisions →
      10 < p.content.length ∧ p.content.length ≤ 12000 := by
  intro p hp
  have hp' : p ∈ dedupByKey (fun p : ParsedProvision => p.provision_ref)
      (fun p => p.content.length) (rawParse html).1 := by
    simpa [parsePhilippineHtml] using hp
  have hraw := dedupByKey_mem _ _ hp'
  simp only [rawParse] at hraw
  exact sectionStep_content_bounds _ _ _ _ p hraw

/-- C10: Every definition's source-provision back-reference resolves to
a provision of the same record. -/
theorem parse_def_source_resolves (html : List Char) (act : ActIndexEntry) :
    ∀ d, d ∈ (parsePhilippineHtml html act).definitions →
      ∃ p, p ∈ (parsePhilippineHtml html act).provisions ∧
        p.provision_ref = d.source_provision := by
  intro d hd
  have hd' : d ∈ dedupByKey (fun d : ParsedDefinition => lowerStr d.term)
      (fun d => d.definition.length) (rawParse html).2 := by
    simpa [parsePhilippineHtml] using hd
  have hdraw := dedupByKey_mem _ _ hd'
  simp only [rawParse] at hdraw
  obtain ⟨praw, hpraw, heq⟩ := sectionStep_def_source _ _ _ _ d hdraw
  have hpraw' : praw ∈ (rawParse html).1 := by simp only [rawParse]; exact hpraw
  obtain ⟨v, hv, hk, _⟩ := dedupByKey_exists_rep
    (fun p : ParsedProvision => p.provision_ref) (fun p => p.content.length) hpraw'
  refine ⟨v, ?_, by rw [hk, heq]⟩
  simpa [parsePhilippineHtml] using hv

/-- C5: When two or more raw provision matches share a reference key,
the record keeps exactly one provision with that key, and its body length
is maximal among those matches. -/
theorem parse_dedup_keeps_longest (html : List Char) (act : ActIndexEntry)
    (k : List Char)
    (h2 : 2 ≤ ((rawParse html).1.filter (fun p => p.provision_ref == k)).length) :
    ((parsePhilippineHtml html act).provisions.countP
      (fun p => p.provision_ref == k)) = 1 ∧
    ∃ p, p ∈ (parsePhilippineHtml html act).provisions ∧ p.provision_ref = k ∧
      p ∈ (rawParse html).1 ∧
      ∀ q ∈ (rawParse html).1, q.provision_ref = k →
        q.content.length ≤ p.content.length := by
  have hne : ((rawParse html).1.filter (fun p => p.provision_ref == k)) ≠ [] := by
    intro hnil; rw [hnil] at h2; simp at h2
  obtain ⟨y, hy⟩ := List.exists_mem_of_ne_nil _ hne
  have hyraw : y ∈ (rawParse html).1 := List.mem_of_mem_filter hy
  have hyk : y.provision_ref = k := by
    have := List.of_mem_filter hy
    exact beq_iff_eq.mp this
  constructor
  · have h1 : (dedupByKey (fun p : ParsedProvision => p.provision_ref)
        (fun p => p.content.length) (rawParse html).1).countP
          (fun v => v.provision_ref == y.provision_ref) = 1 :=
      dedupByKey_countP_eq_one (fun p : ParsedProvision => p.provision_ref)
        (fun p => p.content.length) hyraw
    simp only [hyk] at h1
    have hpe : (parsePhilippineHtml html act).provisions =
        dedupByKey (fun p : ParsedProvision => p.provision_ref)
          (fun p => p.content.length) (rawParse html).1 := by
      simp [parsePhilippineHtml]
    rw [hpe]
    exact h1
  · obtain ⟨kv, hkv, hk1, _⟩ := dedupFold_max
      (fun p : ParsedProvision => p.provision_ref) (fun p => p.content.length)
      (rawParse html).1 [] y hyraw
    have hinv := dedupFold_key_inv (fun p : ParsedProvision => p.provision_ref)
      (fun p => p.content.length) (rawParse html).1 [] (by intro kv h; simp at h)
    have hk1' : kv.1 = y.provision_ref := hk1
    have hinv' : kv.2.provision_ref = kv.1 := hinv kv hkv
    refine ⟨kv.2, ?_, ?_, ?_, ?_⟩
    · have : kv.2 ∈ dedupByKey (fun p : ParsedProvision => p.provision_ref)
          (fun p => p.content.length) (rawParse html).1 :=
        List.mem_map.mpr ⟨kv, hkv, rfl⟩
      simpa [parsePhilippineHtml] using this
    · rw [hinv', hk1', hyk]
    · rcases dedupFold_snd_mem (fun p : ParsedProvision => p.provision_ref)
        (fun p => p.content.length) (rawParse html).1 [] kv hkv with h' | h'
      · exact h'
      · simp at h'
    · intro q hq hqk
      obtain ⟨kvq, hkvq, hkq1, hsq⟩ := dedupFold_max
        (fun p : ParsedProvision => p.provision_ref) (fun p => p.content.length)
        (rawParse html).1 [] q hq
      have hkq1' : kvq.1 = q.provision_ref := hkq1
      have heqkv : kvq = kv := by
        apply dedupFold_entry_unique (fun p : ParsedProvision => p.provision_ref)
          (fun p => p.content.length) hkvq hkv
        rw [hkq1', hqk, hk1', hyk]
      rw [← heqkv]
      exact hsq

/-! ## Claim theorems: orchestrator -/

/-- Every branch of the orchestrator loop emits a record carrying the
work-list document's id (in skip-fetch mode because seed files are keyed
by id and written by this pipeline). -/
theorem processAct_id (env : IngestEnv) (act : ActIndexEntry)
    (hwk : SeedsWellKeyed env.seeds) : (processAct env act).id = act.id := by
  unfold processAct
  split
  · rename_i cached hskip hseed
    exact hwk act.id cached hseed
  · split
    · rfl
    · split
      · split
        · rfl
        · rfl
      · rfl

/-- C1: For every document in the work list, the orchestrator emits
exactly one record whose id matches that document's id, provided the
work-list ids are pairwise distinct and pre-existing seed files are keyed
by the id of the record they hold. -/
theorem orchestrator_coverage (env : IngestEnv) (acts : List ActIndexEntry)
    (act : ActIndexEntry) (hmem : act ∈ acts)
    (hnd : (acts.map (fun a => a.id)).Nodup)
    (hwk : SeedsWellKeyed env.seeds) :
    (runIngest env acts).countP (fun r => r.id == act.id) = 1 := by
  unfold runIngest
  rw [List.countP_map]
  have hcong : ∀ a ∈ acts,
      (((fun r : ParsedAct => r.id == act.id) ∘ processAct env) a = true ↔
        (fun a : ActIndexEntry => decide (a.id = act.id)) a = true) := by
    intro a _
    simp only [Function.comp_apply, beq_iff_eq, decide_eq_true_eq]
    rw [processAct_id env a hwk]
  rw [List.countP_congr hcong]
  have h1 : acts.countP (fun a => decide (a.id = act.id)) =
      (acts.map (fun a => a.id)).countP (fun i => decide (i = act.id)) := by
    rw [List.countP_map]
    rfl
  rw [h1]
  exact countP_beq_eq_one_of_nodup hnd (List.mem_map.mpr ⟨act, hmem, rfl⟩)

/-- C2: When the fetch step raises after exhausting retries or returns
a non-200 status, the emitted record is the metadata-only fallback: empty
provisions and definitions, every metadata field copied from the
SourceDocument.  This covers both run modes: the fetch for a document
runs — and its failure is the claim's premise — exactly when the document
has no pre-existing seed file and no cached raw content to reuse, which
in a full run (skip-fetch off) holds vacuously. -/
theorem orchestrator_fallback_guarantee (env : IngestEnv) (act : ActIndexEntry)
    (hseed : env.skipFetch = true → env.seeds act.id = none)
    (hsrc : env.skipFetch = true → env.sources act.id = none)
    (hbad : env.fetch act = FetchOutcome.netErr ∨
      ∃ r, env.fetch act = FetchOutcome.ok r ∧ r.status ≠ 200) :
    (processAct env act).provisions = [] ∧
    (processAct env act).definitions = [] ∧
    (processAct env act).id = act.id ∧
    (processAct env act).title = act.title ∧
    (processAct env act).title_en = act.titleEn ∧
    (processAct env act).short_name = act.shortName ∧
    (processAct env act).status = act.status ∧
    (processAct env act).issued_date = act.issuedDate ∧
    (processAct env act).in_force_date = act.inForceDate ∧
    (processAct env act).url = act.url ∧
    (processAct env act).description = act.description := by
  have hout : processAct env act = createFallbackSeed act := by
    unfold processAct
    cases hsk : env.skipFetch with
    | false =>
      simp only [if_neg (by simp : ¬(false = true))]
      rcases hbad with hne | ⟨r, hr, hs⟩
      · rw [hne]
      · rw [hr]
        simp only [if_pos hs]
    | true =>
      rw [hseed hsk, hsrc hsk]
      simp only [if_pos (rfl : true = true)]
      rcases hbad with hne | ⟨r, hr, hs⟩
      · rw [hne]
        rfl
      · rw [hr]
        simp only [if_pos hs]
        rfl
  rw [hout]
  exact ⟨rfl, rfl, rfl, rfl, rfl, rfl, rfl, rfl, rfl, rfl, rfl⟩

/-! ## Claim theorem: fetcher retry bound (C3) -/

theorem fetchLoop_503 (oracle : Nat → AttemptOutcome)
    (hor : ∀ n, ∃ r, oracle n = AttemptOutcome.resp r ∧ r.status = 503) :
    ∀ (remaining attempt : Nat),
      (fetchLoop oracle remaining attempt).1 = remaining + 1 ∧
      ∃ r, (fetchLoop oracle remaining attempt).2 = Except.ok r ∧ r.status = 503 := by
  intro remaining
  induction remaining with
  | zero =>
    intro attempt
    obtain ⟨r, hr, hs⟩ := hor attempt
    simp only [fetchLoop, hr]
    exact ⟨by trivial, r, by trivial, hs⟩
  | succ rem ih =>
    intro attempt
    obtain ⟨r, hr, hs⟩ := hor attempt
    have hcond : (r.status == 429 || decide (r.status ≥ 500)) = true := by
      rw [hs]; decide
    obtain ⟨ih1, r', ih2, ih3⟩ := ih (attempt + 1)
    simp only [fetchLoop, hr, hcond, if_true]
    constructor
    · omega
    · exact ⟨r', ih2, ih3⟩

/-- C3: Against an endpoint answering 503 on every request, one fetcher
call performs exactly `maxRetries + 1` attempts and returns normally with
a 503-status result rather than raising. -/
theorem fetch_retry_bound_503 (oracle : Nat → AttemptOutcome) (maxRetries : Nat)
    (hor : ∀ n, ∃ r, oracle n = AttemptOutcome.resp r ∧ r.status = 503) :
    (fetchWithRateLimit oracle maxRetries).1 = maxRetries + 1 ∧
    ∃ r, (fetchWithRateLimit oracle maxRetries).2 = Except.ok r ∧ r.status = 503 :=
  fetchLoop_503 oracle hor maxRetries 0

/-! ## Claim theorem: request pacing (C9) -/

/-- Consecutive request start times are at least `MIN_DELAY_MS` apart. -/
def Paced : List Nat → Prop
  | [] => True
  | [_] => True
  | a :: b :: rest => a + MIN_DELAY_MS ≤ b ∧ Paced (b :: rest)

theorem rateLimit_ge (now last slack : Nat) (h : last ≤ now) :
    last + MIN_DELAY_MS ≤ rateLimit now last slack := by
  unfold rateLimit MIN_DELAY_MS at *
  split <;> omega

theorem paced_cons : ∀ (calls : List (Nat × Nat)) (r : Nat), seqOk r calls →
    Paced (r :: runCalls r calls) := by
  intro calls
  induction calls with
  | nil => intro r _; trivial
  | cons c rest ih =>
    intro r hseq
    obtain ⟨hle, hseq'⟩ := hseq
    exact ⟨rateLimit_ge c.1 r c.2 hle, ih _ hseq'⟩

/-- C9: Across sequential fetcher calls, the wall-clock time between
the starts of consecutive requests is never below the configured minimum
delay, enforced through the shared last-request timestamp. -/
theorem pacing_bound (last : Nat) (calls : List (Nat × Nat))
    (h : seqOk last calls) : Paced (runCalls last calls) := by
  cases calls with
  | nil => trivial
  | cons c rest =>
    obtain ⟨_, hseq'⟩ := h
    exact paced_cons rest _ hseq'

/-! ## Claim theorem: census enumeration dedup (C7) -/

theorem digitChar_toNat (d : Nat) (h : d < 10) : (digitChar d).toNat = 48 + d := by
  unfold digitChar
  interval_cases d <;> decide

theorem natOfDigits_append_one (a : List Char) (c : Char) :
    natOfDigits (a ++ [c]) = 10 * natOfDigits a + (c.toNat - 48) := by
  unfold natOfDigits
  rw [List.foldl_append]
  rfl

theorem natOfDigits_natDecimalAux :
    ∀ (fuel n : Nat), n < fuel → natOfDigits (natDecimalAux fuel n) = n := by
  intro fuel
  induction fuel with
  | zero => intro n h; omega
  | succ f ih =>
    intro n h
    unfold natDecimalAux
    split
    · rename_i h10
      unfold natOfDigits
      simp only [List.foldl_cons, List.foldl_nil]
      rw [digitChar_toNat n h10]
      omega
    · rename_i h10
      rw [natOfDigits_append_one]
      rw [ih (n / 10) (by omega)]
      rw [digitChar_toNat (n % 10) (by omega)]
      omega

theorem natOfDigits_natDecimal (n : Nat) : natOfDigits (natDecimal n) = n :=
  natOfDigits_natDecimalAux (n + 1) n (Nat.lt_succ_self n)

theorem raToId_inj {n1 n2 : Nat} (h : raToId n1 = raToId n2) : n1 = n2 := by
  unfold raToId at h
  have h2 : natDecimal n1 = natDecimal n2 := List.append_cancel_left h
  have h3 := congrArg natOfDigits h2
  rw [natOfDigits_natDecimal, natOfDigits_natDecimal] at h3
  exact h3

theorem find?_congr_pred {α : Type} {p q : α → Bool}
    (hpq : ∀ x, p x = q x) : ∀ l : List α, l.find? p = l.find? q := by
  intro l
  induction l with
  | nil => rfl
  | cons x xs ih =>
    cases hx : p x with
    | true =>
      rw [List.find?_cons_of_pos _ hx, List.find?_cons_of_pos _ (by rw [← hpq x]; exact hx)]
    | false =>
      rw [List.find?_cons_of_neg _ (by simp [hx]),
        List.find?_cons_of_neg _ (by simp [← hpq x, hx]), ih]

theorem censusFold_filter (k : List Char) :
    ∀ (rows : List IndexRow) (seen : List (List Char)),
      (censusFold rows seen).filter (fun law => law.id == k) =
        if seen.contains k then []
        else
          match rows.find? (fun row => rowId row == k) with
          | some r => [buildLaw r]
          | none => [] := by
  intro rows
  induction rows with
  | nil =>
    intro seen
    cases h : seen.contains k <;> simp [censusFold, h]
  | cons row rest ih =>
    intro seen
    unfold censusFold
    by_cases hseen : seen.contains (rowId row) = true
    · rw [if_pos hseen, ih seen]
      by_cases hk : rowId row = k
      · rw [← hk]
        rw [if_pos hseen]
        rw [if_pos hseen]
      · rw [List.find?_cons_of_neg _ (by simp [hk])]
    · rw [if_neg hseen]
      by_cases hk : rowId row = k
      · subst hk
        rw [List.filter_cons_of_pos (by simp [buildLaw, rowId])]
        rw [ih (rowId row :: seen)]
        rw [if_pos (by simp [List.contains_cons])]
        rw [if_neg hseen]
        rw [List.find?_cons_of_pos _ (by simp)]
      · rw [List.filter_cons_of_neg (by simp only [buildLaw, beq_iff_eq]; exact hk)]
        rw [ih (rowId row :: seen)]
        have hbk : (k == rowId row) = false :=
          beq_eq_false_iff_ne.mpr (fun hc => hk hc.symm)
        have hcontains : (rowId row :: seen).contains k = seen.contains k := by
          rw [List.contains_cons, hbk, Bool.false_or]
        rw [hcontains]
        rw [List.find?_cons_of_neg _ (by simp [hk])]

/-- C7: When the index page lists two rows with the same designation
number but different years, the enumerator emits exactly one
SourceDocument for that number — the one built from the first such row in
document order. -/
theorem census_dedup_first_kept (html : List Char) (n : Nat) (r1 r2 : IndexRow)
    (h1 : r1 ∈ scanRows html) (h2 : r2 ∈ scanRows html)
    (hn1 : natOfDigits r1.dispNum = n) (hn2 : natOfDigits r2.dispNum = n)
    (hyy : natOfDigits r1.hrefYear ≠ natOfDigits r2.hrefYear) :
    ∃ rf, (scanRows html).find? (fun row => natOfDigits row.dispNum == n) = some rf ∧
      (parseIndexPage html).filter (fun law => law.id == raToId n) = [buildLaw rf] := by
  have hpred : ∀ row : IndexRow,
      (natOfDigits row.dispNum == n) = (rowId row == raToId n) := by
    intro row
    by_cases h : natOfDigits row.dispNum = n
    · simp [h, rowId]
    · have hne : rowId row ≠ raToId n := by
        unfold rowId
        intro hc
        exact h (raToId_inj hc)
      have hb1 : (natOfDigits row.dispNum == n) = false := beq_eq_false_iff_ne.mpr h
      have hb2 : (rowId row == raToId n) = false := beq_eq_false_iff_ne.mpr hne
      rw [hb1, hb2]
  have hsome : ((scanRows html).find? (fun row => natOfDigits row.dispNum == n)).isSome := by
    rw [List.find?_isSome]
    exact ⟨r1, h1, by simp [hn1]⟩
  obtain ⟨rf, hrf⟩ := Option.isSome_iff_exists.mp hsome
  refine ⟨rf, hrf, ?_⟩
  unfold parseIndexPage
  rw [censusFold_filter]
  have hc : ([] : List (List Char)).contains (raToId n) = false := rfl
  rw [hc, if_neg Bool.false_ne_true]
  rw [← find?_congr_pred hpred (scanRows html), hrf]

/-! ## Claim theorem: the concrete definition-extraction scenario (C6) -/

/-- A document whose HTML contains the scenario text of the specification:
a definition-of-terms section with an enumerated quoted definition. -/
def scenarioHtml : List Char :=
  str "Section 3. Definition of Terms. — (a) \"Personal information\" refers to any information that identifies a person;"

set_option maxRecDepth 1000000 in
/-- C6: On HTML containing the scenario text, the parser emits a provision
with reference key sec3 whose heading contains the phrase Definition of
Terms, and a definition whose term is exactly Personal information. -/
theorem parser_definition_scenario :
    ((parsePhilippineHtml scenarioHtml dpaAct).provisions.any fun p =>
      p.provision_ref == str "sec3" &&
        containsSub (str "Definition of Terms") p.title) = true ∧
    ((parsePhilippineHtml scenarioHtml dpaAct).definitions.any fun d =>
      d.term == str "Personal information") = true := by
  constructor <;> decide

/-! ## Witnesses -/

/-- A full-run environment in which every fetch raises after retries. -/
def demoEnv : IngestEnv :=
  { skipFetch := false, seeds := fun _ => none, sources := fun _ => none,
    fetch := fun _ => FetchOutcome.netErr }

set_option maxRecDepth 100000 in
/-- Witness for the coverage theorem on the real work list. -/
theorem orchestrator_coverage_witness :
    (runIngest demoEnv keyPhilippineActs).countP (fun r => r.id == dpaAct.id) = 1 :=
  orchestrator_coverage demoEnv keyPhilippineActs dpaAct
    (List.mem_cons_self _ _) (by decide) (fun _ _ h => Option.noConfusion h)

/-- A resume-mode environment with no pre-existing seed or cached source
for any document, in which every fetch returns status 503. -/
def httpFailEnv : IngestEnv :=
  { skipFetch := true, seeds := fun _ => none, sources := fun _ => none,
    fetch := fun _ => FetchOutcome.ok ⟨503, [], "", ""⟩ }

/-- Witness for the fallback guarantee on a 503 response. -/
theorem orchestrator_fallback_witness :
    (processAct httpFailEnv dpaAct).provisions = [] ∧
    (processAct httpFailEnv dpaAct).definitions = [] ∧
    (processAct httpFailEnv dpaAct).id = dpaAct.id ∧
    (processAct httpFailEnv dpaAct).title = dpaAct.title ∧
    (processAct httpFailEnv dpaAct).title_en = dpaAct.titleEn ∧
    (processAct httpFailEnv dpaAct).short_name = dpaAct.shortName ∧
    (processAct httpFailEnv dpaAct).status = dpaAct.status ∧
    (processAct httpFailEnv dpaAct).issued_date = dpaAct.issuedDate ∧
    (processAct httpFailEnv dpaAct).in_force_date = dpaAct.inForceDate ∧
    (processAct httpFailEnv dpaAct).url = dpaAct.url ∧
    (processAct httpFailEnv dpaAct).description = dpaAct.description :=
  orchestrator_fallback_guarantee httpFailEnv dpaAct (fun _ => rfl) (fun _ => rfl)
    (Or.inr ⟨⟨503, [], "", ""⟩, rfl, by decide⟩)

/-- An endpoint that answers 503 on every attempt. -/
def oracle503 : Nat → AttemptOutcome :=
  fun _ => AttemptOutcome.resp ⟨503, [], "", ""⟩

/-- Witness for the retry bound at the default `maxRetries = 3`. -/
theorem fetch_retry_bound_witness :
    (fetchWithRateLimit oracle503 3).1 = 3 + 1 ∧
    ∃ r, (fetchWithRateLimit oracle503 3).2 = Except.ok r ∧ r.status = 503 :=
  fetch_retry_bound_503 oracle503 3 (fun _ => ⟨⟨503, [], "", ""⟩, rfl, rfl⟩)

/-- A document whose HTML repeats a section marker with the same key: the
second occurrence has the longer body. -/
def dupHtml : List Char :=
  str "Section 1. Short one. — Alpha beta gamma.\n\nSection 1. Long duplicate. — Alpha beta gamma delta epsilon zeta eta theta;"

set_option maxRecDepth 1000000 in
/-- Witness for the dedup-keeps-longest theorem. -/
theorem parse_dedup_witness :
    2 ≤ ((rawParse dupHtml).1.filter (fun p => p.provision_ref == str "sec1")).length ∧
    (((parsePhilippineHtml dupHtml dpaAct).provisions.countP
      (fun p => p.provision_ref == str "sec1")) = 1 ∧
    ∃ p, p ∈ (parsePhilippineHtml dupHtml dpaAct).provisions ∧
      p.provision_ref = str "sec1" ∧ p ∈ (rawParse dupHtml).1 ∧
      ∀ q ∈ (rawParse dupHtml).1, q.provision_ref = str "sec1" →
        q.content.length ≤ p.content.length) :=
  ⟨by decide, parse_dedup_keeps_longest dupHtml dpaAct (str "sec1") (by decide)⟩

/-- The first provision parsed from the duplicate-section document. -/
def dupProv : ParsedProvision :=
  ((parsePhilippineHtml dupHtml dpaAct).provisions).headD
    ⟨[], none, [], [], []⟩

set_option maxRecDepth 1000000 in
/-- Witness for the content-length bounds. -/
theorem parse_content_bounds_witness :
    10 < dupProv.content.length ∧ dupProv.content.length ≤ 12000 :=
  parse_content_bounds dupHtml dpaAct dupProv (by decide)

/-- The first definition parsed from the scenario document. -/
def scenarioDef : ParsedDefinition :=
  ((parsePhilippineHtml scenarioHtml dpaAct).definitions).headD ⟨[], [], []⟩

set_option maxRecDepth 1000000 in
/-- Witness for the resolving back-reference theorem. -/
theorem parse_def_source_witness :
    ∃ p, p ∈ (parsePhilippineHtml scenarioHtml dpaAct).provisions ∧
      p.provision_ref = scenarioDef.source_provision :=
  parse_def_source_resolves scenarioHtml dpaAct scenarioDef (by decide)

/-- An index page with two rows for RA 12036, years 2024 and 2023. -/
def idxHtml : List Char :=
  str "<tr class=\"x\"><td><a href=\"ra2024/ra_12036_2024.html\">Republic Act No. 12036</a><br>October 17, 2024</td><td>First Title</td></tr>\n<tr class=\"x\"><td><a href=\"ra2023/ra_12036_2023.html\">Republic Act No. 12036</a><br>March 5, 2023</td><td>Second Title</td></tr>"

/-- The first (2024) row of the duplicate-number index page. -/
def idxRow1 : IndexRow :=
  { href := str "ra2024/ra_12036_2024.html", hrefYear := str "2024",
    dispNum := str "12036", dateStr := str "October 17, 2024",
    titleHtml := str "First Title" }

/-- The second (2023) row of the duplicate-number index page. -/
def idxRow2 : IndexRow :=
  { href := str "ra2023/ra_12036_2023.html", hrefYear := str "2023",
    dispNum := str "12036", dateStr := str "March 5, 2023",
    titleHtml := str "Second Title" }

set_option maxRecDepth 1000000 in
/-- Witness for the census dedup theorem on the two-row index page. -/
theorem census_dedup_witness :
    idxRow1 ∈ scanRows idxHtml ∧ idxRow2 ∈ scanRows idxHtml ∧
    natOfDigits idxRow1.hrefYear ≠ natOfDigits idxRow2.hrefYear ∧
    (∃ rf, (scanRows idxHtml).find?
        (fun row => natOfDigits row.dispNum == 12036) = some rf ∧
      (parseIndexPage idxHtml).filter
        (fun law => law.id == raToId 12036) = [buildLaw rf]) :=
  ⟨by decide, by decide, by decide,
    census_dedup_first_kept idxHtml 12036 idxRow1 idxRow2
      (by decide) (by decide) (by decide) (by decide) (by decide)⟩

/-- Witness for the pacing bound: two sequential calls 100 ms apart are
pushed 500 ms apart. -/
theorem pacing_witness :
    seqOk 0 [(1000, 0), (1100, 0)] ∧
    Paced (runCalls 0 [(1000, 0), (1100, 0)]) := by
  have hseq : seqOk 0 [(1000, 0), (1100, 0)] := by
    refine ⟨by norm_num, ?_, trivial⟩
    norm_num [rateLimit, MIN_DELAY_MS]
  exact ⟨hseq, pacing_bound 0 _ hseq⟩

end PhilLaw
